import Mathlib

/-!
# Mood analytics aggregation

A shallow embedding of the `GET /mood-analytics` route of `src/backend/server.js`
(lines 681-800) and theorems about it.

Modelling conventions.

* A JavaScript number is a `Num`: `some q` is the finite double of value `q` and `none` is
  `NaN`. The divisions of the route are rounded to the nearest double (`roundDouble`); its sums
  add integers (scores from 1 to 5, stress values from 0 to 80) and are exact, and so is the
  stress formula on every score (`stress_eq_roundDouble`). The number read back from a
  `toFixed(1)` string is given by the decimal the string denotes.
* A JavaScript object used as a dictionary is the list of its own properties in creation order.
  Properties inherited from `Object.prototype` are visible to a plain `obj[key]` read, and the
  route does such reads with the row's `mood` and `date` as the key, so the names in
  `objectPrototypeKeys` are modelled explicitly.
* `new Date(date).getDay()` and `.getMonth()` are built-ins whose result depends on the engine
  and on the time zone of the server; the route is parametrised by them (`JsDate`), with `none`
  for the `NaN` of an invalid date. `utc` and `fixedOffset` are the built-ins of servers at a
  fixed offset from UTC.
* Strings are compared with the order of `String`, which agrees with the UTF-16 code-unit
  order of JavaScript on every string of Basic-Multilingual-Plane characters, dates included.
-/

namespace MoodAnalytics

/-! ## Numbers -/

/-- A JavaScript number: `some q` for a finite value, `none` for `NaN`. -/
abbrev Num := Option ℚ

/-- JavaScript `a + b` on numbers: `NaN` is absorbing. -/
def numAdd : Num → Num → Num
  | some a, some b => some (a + b)
  | _, _ => none

/-- The number of halvings that take `n` below 2, with `fuel` as a bound on their number. -/
def floorLog2Aux : ℕ → ℕ → ℕ
  | 0, _ => 0
  | fuel + 1, n => if n < 2 then 0 else floorLog2Aux fuel (n / 2) + 1

/-- The exponent of the highest power of two that is at most `n`, for `n ≠ 0`. -/
def floorLog2 (n : ℕ) : ℕ :=
  floorLog2Aux n n

/-- The exponent `e` of the positive rational `n / d`, that is `2 ^ e ≤ n / d < 2 ^ (e + 1)`:
the difference of the exponents of `n` and `d`, lowered by one when `n / d` is below that
power of two. -/
def binaryExponent (n d : ℕ) : ℤ :=
  let e0 : ℤ := (floorLog2 n : ℤ) - (floorLog2 d : ℤ)
  if d * 2 ^ e0.toNat ≤ n * 2 ^ (-e0).toNat then e0 else e0 - 1

/-- The integer nearest to `n / d`, the even one of the two when `n / d` is halfway. -/
def roundHalfEven (n d : ℕ) : ℕ :=
  if 2 * (n % d) < d then n / d
  else if d < 2 * (n % d) then n / d + 1
  else if (n / d) % 2 = 0 then n / d
  else n / d + 1

/-- The IEEE-754 binary64 number nearest to `q` (53-bit significand, round to nearest, ties to
even): with `2 ^ e ≤ |q| < 2 ^ (e + 1)`, the multiple of `2 ^ (e - 52)` nearest to `q`. The
exponent range is not bounded (no overflow, no subnormal numbers). -/
def roundDouble (q : ℚ) : ℚ :=
  if q = 0 then 0
  else
    let n := q.num.natAbs
    let d := q.den
    let s := binaryExponent n d - 52
    let m := roundHalfEven (n * 2 ^ (-s).toNat) (d * 2 ^ s.toNat)
    let v : ℚ := (m : ℚ) * 2 ^ s.toNat / 2 ^ (-s).toNat
    if q < 0 then -v else v

/-- JavaScript `a / n` where `n` is an array length or a counter: the double nearest to the
quotient. The only division by zero the route could perform is `0 / 0`, which is `NaN`. -/
def numDiv (a : Num) (n : ℕ) : Num :=
  match a with
  | some x => if n = 0 then none else some (roundDouble (x / n))
  | none => none

/-- JavaScript `a > b`: false as soon as one operand is `NaN`. -/
def numGt : Num → Num → Bool
  | some a, some b => decide (b < a)
  | _, _ => false

/-- JavaScript `a >= b` as a proposition: it fails as soon as one operand is `NaN`. -/
def numGe : Num → Num → Prop
  | some a, some b => b ≤ a
  | _, _ => False

/-- The integer `n` for which `n / 10` is nearest to `x`, the larger one on a tie, for `0 ≤ x`
(`Number.prototype.toFixed`, step "let n be an integer for which n / 10^f - x is as close to
zero as possible; if there are two such n, pick the larger n"). -/
def fixedTenths (x : ℚ) : ℕ := (Rat.floor (x * 10 + 1 / 2)).toNat

/-- The string `x.toFixed(1)`. A negative `x` is formatted as `-` followed by the digits of
`-x`. -/
def toFixed1 : Num → String
  | none => "NaN"
  | some x =>
    if x < 0 then
      "-" ++ toString (fixedTenths (-x) / 10) ++ "." ++ toString (fixedTenths (-x) % 10)
    else
      toString (fixedTenths x / 10) ++ "." ++ toString (fixedTenths x % 10)

/-- The number `+x.toFixed(1)`: the value denoted by the string `toFixed1 x`. -/
def plusToFixed1 : Num → Num
  | none => none
  | some x =>
    if x < 0 then some (-((fixedTenths (-x) : ℚ) / 10)) else some ((fixedTenths x : ℚ) / 10)

/-! ## Rows, mood scores -/

/-- One row of `SELECT date, mood FROM mood_tracking WHERE email = ? ORDER BY date ASC`;
both columns are `TEXT`. -/
structure Row where
  date : String
  mood : String
  deriving DecidableEq, Repr

/-- The property names every object literal inherits from `Object.prototype`. A read
`obj[name]` with one of these names yields a function (or, for `__proto__`, the prototype
object) when `obj` has no own property of that name; all of them are truthy. -/
def objectPrototypeKeys : List String :=
  ["constructor", "hasOwnProperty", "isPrototypeOf", "propertyIsEnumerable",
   "toLocaleString", "toString", "valueOf", "__proto__",
   "__defineGetter__", "__defineSetter__", "__lookupGetter__", "__lookupSetter__"]

/-- The own properties of the literal `moodMapping` (lines 701-707). -/
def moodMapping : List (String × ℚ) :=
  [("Overwhelmed", 1), ("Sad", 2), ("Neutral", 3), ("Happy", 4), ("Ecstatic", 5)]

/-- The value of `moodMapping[mood] || 3` (line 716) as the arithmetic of the route sees it.
An own property gives its number (`||` keeps it, being non-zero); a name that is not found at
all gives `undefined`, hence `3`; a name found on `Object.prototype` gives a truthy function or
object, which `||` keeps: it is not a number, `score / 5` is `NaN`, and every sum it enters is
a non-numeric string whose quotient is `NaN`, so it is rendered as `none`. -/
def score (mood : String) : Num :=
  match moodMapping.lookup mood with
  | some v => if v = 0 then some 3 else some v
  | none => if mood ∈ objectPrototypeKeys then none else some 3

/-- The value of `100 - ((score / 5) * 100)` (line 717). -/
def stress (sc : Num) : Num :=
  sc.map (fun s => 100 - (s / 5) * 100)

/-! ## Dictionaries -/

/-- The read `obj[k]` restricted to own properties. -/
def getProp {κ α : Type} [DecidableEq κ] : List (κ × α) → κ → Option α
  | [], _ => none
  | (k', v) :: rest, k => if k' = k then some v else getProp rest k

/-- The update "if `obj` has no own property `k`, create it with value `init`, otherwise
replace its value `v` by `upd v`"; a new property goes last in creation order. -/
def upsert {κ α : Type} [DecidableEq κ] (k : κ) (init : α) (upd : α → α) :
    List (κ × α) → List (κ × α)
  | [] => [(k, init)]
  | (k', v) :: rest =>
    if k' = k then (k', upd v) :: rest else (k', v) :: upsert k init upd rest

/-- The statement pair `if (!obj[k]) obj[k] = []; obj[k].push(v);` (lines 722-731). -/
def pushProp {κ α : Type} [DecidableEq κ] (obj : List (κ × List α)) (k : κ) (v : α) :
    List (κ × List α) :=
  upsert k [v] (fun arr => arr ++ [v]) obj

/-- `Object.keys(obj)` up to order (own enumerable property names). -/
def keys {κ α : Type} (obj : List (κ × α)) : List κ :=
  obj.map Prod.fst

/-! ## The accumulation loop -/

/-- The built-ins `new Date(date).getDay()` and `new Date(date).getMonth()`; `none` is the
`NaN` they return for an invalid date. -/
structure JsDate where
  getDay : String → Option ℕ
  getMonth : String → Option ℕ

/-- A value of `dailyData`: `{ totalScore, totalStress, count }`. -/
structure DailyEntry where
  totalScore : Num
  totalStress : Num
  count : ℕ
  deriving DecidableEq

/-- The five accumulators declared at lines 709-713. Weekday and month keys are numbers
(`none` for `NaN`). -/
structure Acc where
  weeklyData : List (Option ℕ × List Num)
  monthlyData : List (Option ℕ × List Num)
  stressLevels : List (Option ℕ × List Num)
  moodScores : List Num
  dailyData : List (String × DailyEntry)

/-- The accumulators before the loop: three empty objects, an empty array, an empty object. -/
def Acc.empty : Acc :=
  { weeklyData := [], monthlyData := [], stressLevels := [], moodScores := [], dailyData := [] }

/-- The object `{ totalScore: score, totalStress: stress, count: 1 }` (line 738). -/
def DailyEntry.first (sc st : Num) : DailyEntry :=
  { totalScore := sc, totalStress := st, count := 1 }

/-- The three updates `+= score`, `+= stress`, `+= 1` of an existing entry (lines 740-742). -/
def DailyEntry.add (e : DailyEntry) (sc st : Num) : DailyEntry :=
  { totalScore := numAdd e.totalScore sc,
    totalStress := numAdd e.totalStress st,
    count := e.count + 1 }

/-- The `dailyData` part of the loop body (lines 737-743). The test `!dailyData[date]` also
sees inherited properties: for a `date` naming one of them the `else` branch runs and updates
the inherited object, so `dailyData` gets no own property. -/
def addDaily (dailyData : List (String × DailyEntry)) (date : String) (sc st : Num) :
    List (String × DailyEntry) :=
  if date ∈ objectPrototypeKeys then dailyData
  else upsert date (DailyEntry.first sc st) (fun e => e.add sc st) dailyData

/-- The body of `rows.forEach(({ date, mood }) => { ... })` (lines 715-744). -/
def forEachBody (D : JsDate) (acc : Acc) (row : Row) : Acc :=
  let sc := score row.mood
  let st := stress sc
  let dayOfWeek := D.getDay row.date
  let month := D.getMonth row.date
  { weeklyData := pushProp acc.weeklyData dayOfWeek sc,
    monthlyData := pushProp acc.monthlyData month sc,
    stressLevels := pushProp acc.stressLevels dayOfWeek st,
    moodScores := acc.moodScores ++ [sc],
    dailyData := addDaily acc.dailyData row.date sc st }

/-- The state after `rows.forEach`. -/
def accumulate (D : JsDate) (rows : List Row) : Acc :=
  rows.foldl (forEachBody D) Acc.empty

/-! ## The derived arrays -/

/-- The order induced on numeric keys by the comparator `(a, b) => a - b`; a `NaN` key
compares as equal to everything and is left after the numbers. -/
def keyLe : Option ℕ → Option ℕ → Prop
  | some a, some b => a ≤ b
  | _, none => True
  | none, some _ => False

instance keyLe_decidable : DecidableRel keyLe := fun a b =>
  match a, b with
  | some a, some b => inferInstanceAs (Decidable (a ≤ b))
  | some _, none => isTrue trivial
  | none, none => isTrue trivial
  | none, some _ => isFalse (fun h => h)

instance keyLe_total : IsTotal (Option ℕ) keyLe :=
  ⟨fun a b => by
    cases a <;> cases b <;> simp [keyLe]
    exact Nat.le_total _ _⟩

instance keyLe_trans : IsTrans (Option ℕ) keyLe :=
  ⟨fun a b c => by
    cases a <;> cases b <;> cases c <;> simp [keyLe]
    exact Nat.le_trans⟩

instance keyLe_antisymm : IsAntisymm (Option ℕ) keyLe :=
  ⟨fun a b => by
    cases a <;> cases b <;> simp [keyLe]
    exact Nat.le_antisymm⟩

/-- The value of `arr.reduce((sum, val) => sum + val, 0) / arr.length`. -/
def mean (arr : List Num) : Num :=
  numDiv (arr.foldl numAdd (some 0)) arr.length

/-- The value of `Object.keys(obj).sort((a, b) => a - b).map(k => mean of obj[k])`
(lines 747-768). -/
def trend (obj : List (Option ℕ × List Num)) : List Num :=
  ((keys obj).insertionSort keyLe).map (fun k => mean ((getProp obj k).getD []))

/-- An element `{ date, avgMood, stressLevel }` of `dailyAnalytics`. -/
structure DayStat where
  date : String
  avgMood : Num
  stressLevel : Num
  deriving DecidableEq

/-- The callback of the `map` at lines 773-778, applied to the entry of `date`. -/
def dayStat (date : String) (e : DailyEntry) : DayStat :=
  { date := date,
    avgMood := plusToFixed1 (numDiv e.totalScore e.count),
    stressLevel := plusToFixed1 (numDiv e.totalStress e.count) }

/-- The value of `Object.keys(dailyData).sort().map(date => ...)` (lines 771-778). -/
def dailyAnalytics (dailyData : List (String × DailyEntry)) : List DayStat :=
  ((keys dailyData).insertionSort (fun a b => a ≤ b)).map
    (fun date => dayStat date ((getProp dailyData date).getD ⟨none, none, 0⟩))

/-- The value of `arr.reduce(f)` without an initial value; `none` is the `TypeError` thrown on
an empty array. -/
def reduce1 {α : Type} (f : α → α → α) : List α → Option α
  | [] => none
  | x :: xs => some (xs.foldl f x)

/-- The callback `(prev, current) => prev.stressLevel > current.stressLevel ? prev : current`
(lines 783-785). -/
def pickHigher (prev current : DayStat) : DayStat :=
  if numGt prev.stressLevel current.stressLevel then prev else current

/-- The value of `highestStressDayObj` (line 783), `none` when the reduce throws. -/
def highestStressDayObj (daily : List DayStat) : Option DayStat :=
  reduce1 pickHigher daily

/-- The value of `avgMoodOverall` (line 781). -/
def avgMoodOverall (moodScores : List Num) : String :=
  toFixed1 (mean moodScores)

/-- The object `insights` of the response. -/
structure Insights where
  avgMood : String
  highestStressDay : String
  deriving DecidableEq

/-- The fields of the response built at lines 788-798, `hasData: true` apart. -/
structure Analytics where
  dailyAnalytics : List DayStat
  weeklyMoodTrend : List Num
  monthlyMoodTrend : List Num
  weeklyStressLevels : List Num
  insights : Insights
  deriving DecidableEq

/-- The aggregation of a non-empty result set (lines 700-798); `none` when the reduce of
line 783 throws. -/
def aggregate (D : JsDate) (rows : List Row) : Option Analytics :=
  let acc := accumulate D rows
  let daily := dailyAnalytics acc.dailyData
  match highestStressDayObj daily with
  | none => none
  | some obj =>
    some
      { dailyAnalytics := daily,
        weeklyMoodTrend := trend acc.weeklyData,
        monthlyMoodTrend := trend acc.monthlyData,
        weeklyStressLevels := trend acc.stressLevels,
        insights := { avgMood := avgMoodOverall acc.moodScores, highestStressDay := obj.date } }

/-! ## The route -/

/-- The three shapes of JSON body the route sends. -/
inductive Body where
  | error (msg : String)
  | noData
  | data (a : Analytics)
  deriving DecidableEq

/-- The keys of the object literal sent as the body. -/
def Body.keys : Body → List String
  | Body.error _ => ["error"]
  | Body.noData => ["hasData"]
  | Body.data _ =>
    ["hasData", "dailyAnalytics", "weeklyMoodTrend", "monthlyMoodTrend",
     "weeklyStressLevels", "insights"]

/-- The value under the key `hasData`, when the body has that key. -/
def Body.hasData : Body → Option Bool
  | Body.error _ => none
  | Body.noData => some false
  | Body.data _ => some true

/-- An HTTP response: status code (`res.json` without `res.status` sends 200) and body. -/
structure Response where
  status : ℕ
  body : Body
  deriving DecidableEq

/-- What one request does: the parameters of the `db.all` calls it made, and the response it
sent (`none` when the callback threw before sending one). -/
structure Outcome where
  reads : List String
  response : Option Response
  deriving DecidableEq

/-- The handler `app.get("/mood-analytics", ...)` (lines 681-800). `email` is `req.query.email`
(`none` when absent; the empty string is falsy too); `db` is the outcome of the `db.all` query
for a given parameter: `Except.error` for a non-null `err`, `Except.ok rows` otherwise. -/
def moodAnalyticsRoute (D : JsDate) (db : String → Except String (List Row))
    (email : Option String) : Outcome :=
  match email with
  | none => { reads := [], response := some ⟨400, Body.error "Email is required"⟩ }
  | some e =>
    if e = "" then { reads := [], response := some ⟨400, Body.error "Email is required"⟩ }
    else
      match db e with
      | Except.error _ => { reads := [e], response := some ⟨500, Body.error "Database error"⟩ }
      | Except.ok rows =>
        if rows.length = 0 then { reads := [e], response := some ⟨200, Body.noData⟩ }
        else { reads := [e], response := (aggregate D rows).map (fun a => ⟨200, Body.data a⟩) }

/-! ## Calendar dates in UTC -/

/-- The decimal value of a digit character. -/
def digitVal (c : Char) : Option ℕ :=
  if 48 ≤ c.toNat ∧ c.toNat ≤ 57 then some (c.toNat - 48) else none

/-- Whether `y` is a leap year of the Gregorian calendar. -/
def isLeapYear (y : ℕ) : Bool :=
  (y % 4 == 0 && y % 100 != 0) || y % 400 == 0

/-- The number of days of month `m` (1 to 12) of year `y`. -/
def daysInMonth (y m : ℕ) : ℕ :=
  if m = 2 then (if isLeapYear y then 29 else 28)
  else if m = 4 ∨ m = 6 ∨ m = 9 ∨ m = 11 then 30
  else 31

/-- Year, month (1 to 12) and day of a string of the form `YYYY-MM-DD` that names a day of the
calendar. -/
def parseIsoDate (s : String) : Option (ℕ × ℕ × ℕ) :=
  match s.data with
  | [y1, y2, y3, y4, '-', m1, m2, '-', d1, d2] =>
    match digitVal y1, digitVal y2, digitVal y3, digitVal y4,
      digitVal m1, digitVal m2, digitVal d1, digitVal d2 with
    | some a, some b, some c, some d, some e, some f, some g, some h =>
      let y := 1000 * a + 100 * b + 10 * c + d
      let m := 10 * e + f
      let dd := 10 * g + h
      if 1 ≤ m ∧ m ≤ 12 ∧ 1 ≤ dd ∧ dd ≤ daysInMonth y m then some (y, m, dd) else none
    | _, _, _, _, _, _, _, _ => none
  | _ => none

/-- The day of the week (0 = Sunday) of a calendar day, by the month-offset table of
Sakamoto; the year is shifted by one 400-year cycle, which is a whole number of weeks. -/
def weekdayOf (y m d : ℕ) : ℕ :=
  let y1 := if m < 3 then y + 399 else y + 400
  (y1 + y1 / 4 - y1 / 100 + y1 / 400 + ([0, 3, 2, 5, 0, 3, 5, 1, 4, 6, 2, 4].getD (m - 1) 0) + d) % 7

/-- The date built-ins of a server whose time zone is UTC, on date-only ISO strings: such a
string denotes midnight UTC of that day. -/
def utc : JsDate :=
  { getDay := fun s => (parseIsoDate s).map (fun p => weekdayOf p.1 p.2.1 p.2.2),
    getMonth := fun s => (parseIsoDate s).map (fun p => p.2.1 - 1) }

/-- The date is a well-formed ISO calendar date `YYYY-MM-DD`, the format the route assumes
(comment at line 736). -/
def isIsoDate (s : String) : Bool :=
  (parseIsoDate s).isSome

/-- The calendar day before the day `d` of month `m` of year `y`. -/
def previousDay (y m d : ℕ) : ℕ × ℕ × ℕ :=
  if 1 < d then (y, m, d - 1)
  else if 1 < m then (y, m - 1, daysInMonth y (m - 1))
  else (y - 1, 12, 31)

/-- The date built-ins of a server whose local time is UTC plus `offsetMinutes`, less than a
day either way and without daylight saving. A date-only ISO string is parsed as midnight UTC
(`new Date("2024-01-01")`), and `getDay`, `getMonth` read the local calendar day of that
instant: the same day at or east of UTC, the day before west of UTC. -/
def fixedOffset (offsetMinutes : ℤ) : JsDate :=
  { getDay := fun s =>
      (parseIsoDate s).map (fun p =>
        if offsetMinutes < 0 then (weekdayOf p.1 p.2.1 p.2.2 + 6) % 7
        else weekdayOf p.1 p.2.1 p.2.2),
    getMonth := fun s =>
      (parseIsoDate s).map (fun p =>
        if offsetMinutes < 0 then (previousDay p.1 p.2.1 p.2.2).2.1 - 1 else p.2.1 - 1) }

/-- The assumption made on the date built-ins: on a well-formed ISO calendar date they return a
weekday index from 0 to 6 and a month index from 0 to 11. -/
def JsDate.InRange (D : JsDate) : Prop :=
  ∀ s, isIsoDate s = true →
    (∃ d, d < 7 ∧ D.getDay s = some d) ∧ (∃ m, m < 12 ∧ D.getMonth s = some m)

/-! ## Notions of the specification and sample inputs -/

/-- The arithmetic mean `(x₁ + ... + xₙ) / n` of a list of rationals. -/
def arithmeticMean (l : List ℚ) : ℚ :=
  l.sum / l.length

/-- The mean of an array with an exact quotient: the rational that `mean` rounds to a double. -/
def exactMean (arr : List Num) : Num :=
  match arr.foldl numAdd (some 0) with
  | some x => if arr.length = 0 then none else some (x / arr.length)
  | none => none

/-- The weekday means of the scores with exact quotients, in ascending order of weekday. -/
def exactWeekdayMeans (D : JsDate) (rows : List Row) : List Num :=
  ((keys (accumulate D rows).weeklyData).insertionSort keyLe).map
    (fun k => exactMean ((rows.filter (fun r => D.getDay r.date = k)).map
      (fun r => score r.mood)))

/-- The rows of one date, in the order of the result set. -/
def rowsOn (d : String) (rows : List Row) : List Row :=
  rows.filter (fun r => r.date = d)

/-- The entry of one date after the events `rs` of that date, starting from `o`. -/
def entryAfter (o : Option DailyEntry) (rs : List Row) : Option DailyEntry :=
  rs.foldl
    (fun o r =>
      some (match o with
        | some e => e.add (score r.mood) (stress (score r.mood))
        | none => DailyEntry.first (score r.mood) (stress (score r.mood))))
    o

/-- Two days, one `Happy` event each: both days have stress level 20. -/
def tieRows : List Row :=
  [⟨"2024-01-01", "Happy"⟩, ⟨"2024-01-02", "Happy"⟩]

/-- The three events of the worked example of the specification. -/
def exampleRows : List Row :=
  [⟨"2024-01-01", "Happy"⟩, ⟨"2024-01-01", "Sad"⟩, ⟨"2024-01-08", "Ecstatic"⟩]

/-- Three days; the mood of the second one names a member of `Object.prototype`. -/
def inheritedMoodRows : List Row :=
  [⟨"2024-01-01", "Overwhelmed"⟩, ⟨"2024-01-02", "toString"⟩, ⟨"2024-01-03", "Happy"⟩]

/-- One row whose date names a member of `Object.prototype`. -/
def inheritedDateRows : List Row :=
  [⟨"constructor", "Happy"⟩]

/-- Twenty events of one day, 17 `Overwhelmed` and 3 `Sad`: the scores sum to 23, their mean
is `23 / 20 = 1.15`, halfway between `1.1` and `1.2`. -/
def halfwayRows : List Row :=
  List.replicate 17 ⟨"2024-01-01", "Overwhelmed"⟩ ++ List.replicate 3 ⟨"2024-01-01", "Sad"⟩

/-- Four events of one day, 3 `Overwhelmed` and 1 `Sad`: the scores sum to 5, their mean is
`5 / 4 = 1.25`, halfway between `1.2` and `1.3`. -/
def quarterRows : List Row :=
  List.replicate 3 ⟨"2024-01-01", "Overwhelmed"⟩ ++ [⟨"2024-01-01", "Sad"⟩]

/-- A `Happy` event on Sunday 2024-01-07 and a `Sad` event on Monday 2024-01-01. -/
def sundayMondayRows : List Row :=
  [⟨"2024-01-07", "Happy"⟩, ⟨"2024-01-01", "Sad"⟩]

/-- An event store with no row for any user. -/
def emptyStore : String → Except String (List Row) :=
  fun _ => Except.ok []

/-- An event store that returns the rows of the worked example. -/
def exampleStore : String → Except String (List Row) :=
  fun _ => Except.ok exampleRows

/-- An event store whose read fails. -/
def failingStore : String → Except String (List Row) :=
  fun _ => Except.error "SQLITE_BUSY"

/-! ## Lemmas on numbers -/

/-! ### Rounding to a double -/

theorem roundHalfEven_ge (N D K : ℕ) (hD : 0 < D) (h : K * D ≤ N) :
    K ≤ roundHalfEven N D := by
  have h1 : K ≤ N / D := (Nat.le_div_iff_mul_le hD).2 h
  unfold roundHalfEven
  split_ifs <;> omega

theorem roundHalfEven_le (N D K : ℕ) (hD : 0 < D) (h : N ≤ K * D) :
    roundHalfEven N D ≤ K := by
  have h1 : N / D ≤ K := by
    calc N / D ≤ K * D / D := Nat.div_le_div_right h
      _ = K := Nat.mul_div_cancel _ hD
  rcases Nat.lt_or_ge (N / D) K with h2 | h2
  · unfold roundHalfEven
    split_ifs <;> omega
  · have h3 : N / D = K := le_antisymm h1 h2
    have h4 : N % D = 0 := by
      have h5 := Nat.div_add_mod N D
      rw [h3, Nat.mul_comm] at h5
      omega
    unfold roundHalfEven
    simp [h4, hD, h3]

theorem floorLog2Aux_spec (fuel n : ℕ) (hf : n ≤ fuel) (hn : n ≠ 0) :
    2 ^ floorLog2Aux fuel n ≤ n ∧ n < 2 ^ (floorLog2Aux fuel n + 1) := by
  induction fuel generalizing n with
  | zero => omega
  | succ f ih =>
    unfold floorLog2Aux
    by_cases h2 : n < 2
    · have h1 : n = 1 := by omega
      simp [h1]
    · simp only [h2, if_false]
      have hih := ih (n / 2) (by omega) (by omega)
      have hdm := Nat.div_add_mod n 2
      have hmod : n % 2 < 2 := Nat.mod_lt _ (by norm_num)
      constructor
      · rw [pow_succ]
        omega
      · rw [pow_succ]
        omega

theorem floorLog2_le (n : ℕ) (hn : n ≠ 0) : 2 ^ floorLog2 n ≤ n :=
  (floorLog2Aux_spec n n (le_refl n) hn).1

theorem lt_floorLog2 (n : ℕ) (hn : n ≠ 0) : n < 2 ^ (floorLog2 n + 1) :=
  (floorLog2Aux_spec n n (le_refl n) hn).2

theorem binaryExponent_le (n d : ℕ) (hn : n ≠ 0) (hd : d ≠ 0) (h : n ≤ 2 ^ 52 * d) :
    binaryExponent n d ≤ 52 := by
  have ha := floorLog2_le n hn
  have hb := lt_floorLog2 d hd
  have hdpos : 0 < d := Nat.pos_of_ne_zero hd
  unfold binaryExponent
  simp only
  by_contra hcon
  push_neg at hcon
  split_ifs at hcon with hc
  · have hk : floorLog2 d + 53 ≤ floorLog2 n := by omega
    have e1 : ((floorLog2 n : ℤ) - (floorLog2 d : ℤ)).toNat = floorLog2 n - floorLog2 d := by
      omega
    have e2 : (-((floorLog2 n : ℤ) - (floorLog2 d : ℤ))).toNat = 0 := by omega
    rw [e1, e2, pow_zero, Nat.mul_one] at hc
    have hp : 2 ^ 53 ≤ 2 ^ (floorLog2 n - floorLog2 d) :=
      Nat.pow_le_pow_right (by norm_num) (by omega)
    have : d * 2 ^ 53 ≤ d * 2 ^ (floorLog2 n - floorLog2 d) := Nat.mul_le_mul_left d hp
    omega
  · have hk : floorLog2 d + 54 ≤ floorLog2 n := by omega
    have hp : 2 ^ (floorLog2 d + 1 + 53) ≤ 2 ^ floorLog2 n :=
      Nat.pow_le_pow_right (by norm_num) (by omega)
    rw [pow_add] at hp
    have : d * 2 ^ 53 < 2 ^ (floorLog2 d + 1) * 2 ^ 53 :=
      Nat.mul_lt_mul_of_pos_right hb (by norm_num)
    omega

theorem roundDouble_zero : roundDouble 0 = 0 := by
  simp [roundDouble]

/-- Rounding to the nearest double does not cross a natural number below `2 ^ 52`. -/
theorem roundDouble_between (q : ℚ) (a b : ℕ) (hb : b ≤ 2 ^ 52) (h1 : (a : ℚ) ≤ q)
    (h2 : q ≤ (b : ℚ)) : (a : ℚ) ≤ roundDouble q ∧ roundDouble q ≤ (b : ℚ) := by
  have hq0 : 0 ≤ q := le_trans (Nat.cast_nonneg a) h1
  rcases eq_or_lt_of_le hq0 with hz | hpos
  · rw [← hz] at h1 h2 ⊢
    rw [roundDouble_zero]
    exact ⟨h1, h2⟩
  · have hnum : 0 < q.num := Rat.num_pos.2 hpos
    have hden : 0 < q.den := q.den_pos
    have hn : q.num.natAbs ≠ 0 := by omega
    have hcast : ((q.num.natAbs : ℕ) : ℚ) = (q.num : ℚ) := by
      rw [← Int.cast_natCast, Int.natAbs_of_nonneg hnum.le]
    have hqeq : q = (q.num.natAbs : ℚ) / (q.den : ℚ) := by
      rw [hcast]; exact (Rat.num_div_den q).symm
    have hdq : (0 : ℚ) < (q.den : ℚ) := by exact_mod_cast hden
    -- the bounds as inequalities between naturals
    have hA : a * q.den ≤ q.num.natAbs := by
      have : (a : ℚ) * q.den ≤ q.num.natAbs := by
        rw [hqeq, le_div_iff₀ hdq] at h1; exact h1
      exact_mod_cast this
    have hB : q.num.natAbs ≤ b * q.den := by
      have : (q.num.natAbs : ℚ) ≤ (b : ℚ) * q.den := by
        rw [hqeq, div_le_iff₀ hdq] at h2; exact h2
      exact_mod_cast this
    have hE : binaryExponent q.num.natAbs q.den ≤ 52 :=
      binaryExponent_le _ _ hn (by omega)
        (le_trans hB (Nat.mul_le_mul_right _ hb))
    have hs : (binaryExponent q.num.natAbs q.den - 52).toNat = 0 := by omega
    have hne : q ≠ 0 := ne_of_gt hpos
    have hnl : ¬ q < 0 := not_lt.2 hq0
    simp only [roundDouble, hne, if_false, hs, pow_zero, Nat.mul_one, mul_one, hnl]
    set up := (-(binaryExponent q.num.natAbs q.den - 52)).toNat with hup
    have hpow : (0 : ℚ) < (2 : ℚ) ^ up := by positivity
    constructor
    · rw [le_div_iff₀ hpow]
      have hmul : a * 2 ^ up * q.den ≤ q.num.natAbs * 2 ^ up := by
        calc a * 2 ^ up * q.den = a * q.den * 2 ^ up := by ring
          _ ≤ q.num.natAbs * 2 ^ up := Nat.mul_le_mul_right _ hA
      have := roundHalfEven_ge (q.num.natAbs * 2 ^ up) q.den (a * 2 ^ up) hden hmul
      exact_mod_cast this
    · rw [div_le_iff₀ hpow]
      have hmul : q.num.natAbs * 2 ^ up ≤ b * 2 ^ up * q.den := by
        calc q.num.natAbs * 2 ^ up ≤ b * q.den * 2 ^ up := Nat.mul_le_mul_right _ hB
          _ = b * 2 ^ up * q.den := by ring
      have := roundHalfEven_le (q.num.natAbs * 2 ^ up) q.den (b * 2 ^ up) hden hmul
      exact_mod_cast this

theorem roundHalfEven_close (N D : ℕ) (hD : 0 < D) :
    2 * (roundHalfEven N D * D) ≤ 2 * N + D ∧ 2 * N ≤ 2 * (roundHalfEven N D * D) + D := by
  have h1 := Nat.div_add_mod N D
  have h2 := Nat.mod_lt N hD
  have h3 : (N / D + 1) * D = D * (N / D) + D := by ring
  have h4 : N / D * D = D * (N / D) := by ring
  unfold roundHalfEven
  split_ifs
  all_goals first | rw [h3] | rw [h4]
  all_goals generalize D * (N / D) = t at h1 ⊢
  all_goals omega

theorem binaryExponent_le_of_le (n d k : ℕ) (hn : n ≠ 0) (hd : d ≠ 0) (h : n ≤ 2 ^ k * d) :
    binaryExponent n d ≤ k := by
  have ha := floorLog2_le n hn
  have hb := lt_floorLog2 d hd
  have hdpos : 0 < d := Nat.pos_of_ne_zero hd
  have hX : 0 < 2 ^ k * d := Nat.mul_pos (by positivity) hdpos
  unfold binaryExponent
  simp only
  by_contra hcon
  push_neg at hcon
  split_ifs at hcon with hc
  · have hk : floorLog2 d + (k + 1) ≤ floorLog2 n := by omega
    have e1 : ((floorLog2 n : ℤ) - (floorLog2 d : ℤ)).toNat = floorLog2 n - floorLog2 d := by
      omega
    have e2 : (-((floorLog2 n : ℤ) - (floorLog2 d : ℤ))).toNat = 0 := by omega
    rw [e1, e2, pow_zero, Nat.mul_one] at hc
    have hp : 2 ^ (k + 1) ≤ 2 ^ (floorLog2 n - floorLog2 d) :=
      Nat.pow_le_pow_right (by norm_num) (by omega)
    have h5 : d * 2 ^ (k + 1) ≤ d * 2 ^ (floorLog2 n - floorLog2 d) := Nat.mul_le_mul_left d hp
    have h6 : d * 2 ^ (k + 1) = 2 * (2 ^ k * d) := by ring
    omega
  · have hk : floorLog2 d + (k + 2) ≤ floorLog2 n := by omega
    have hp : 2 ^ (floorLog2 d + 1 + (k + 1)) ≤ 2 ^ floorLog2 n :=
      Nat.pow_le_pow_right (by norm_num) (by omega)
    rw [pow_add] at hp
    have h5 : d * 2 ^ (k + 1) < 2 ^ (floorLog2 d + 1) * 2 ^ (k + 1) :=
      Nat.mul_lt_mul_of_pos_right hb (by positivity)
    have h6 : d * 2 ^ (k + 1) = 2 * (2 ^ k * d) := by ring
    omega

/-- The rounding error of a double: for `0 ≤ q ≤ 2 ^ k` with `k ≤ 52` the double nearest to
`q` is at distance at most `2 ^ k / 2 ^ 53` of `q`. -/
theorem roundDouble_close (q : ℚ) (k : ℕ) (hk : k ≤ 52) (h0 : 0 ≤ q) (h2 : q ≤ 2 ^ k) :
    |roundDouble q - q| ≤ 2 ^ k / 2 ^ 53 := by
  rcases eq_or_lt_of_le h0 with hz | hpos
  · rw [← hz, roundDouble_zero]
    simp
    positivity
  · have hnum : 0 < q.num := Rat.num_pos.2 hpos
    have hden : 0 < q.den := q.den_pos
    have hn : q.num.natAbs ≠ 0 := by omega
    have hcast : ((q.num.natAbs : ℕ) : ℚ) = (q.num : ℚ) := by
      rw [← Int.cast_natCast, Int.natAbs_of_nonneg hnum.le]
    have hqeq : q = (q.num.natAbs : ℚ) / (q.den : ℚ) := by
      rw [hcast]; exact (Rat.num_div_den q).symm
    have hdq : (0 : ℚ) < (q.den : ℚ) := by exact_mod_cast hden
    have hB : q.num.natAbs ≤ 2 ^ k * q.den := by
      have : (q.num.natAbs : ℚ) ≤ (2 : ℚ) ^ k * q.den := by
        rw [hqeq, div_le_iff₀ hdq] at h2; exact h2
      exact_mod_cast this
    have hE : binaryExponent q.num.natAbs q.den ≤ k :=
      binaryExponent_le_of_le _ _ k hn (by omega) hB
    have hs : (binaryExponent q.num.natAbs q.den - 52).toNat = 0 := by omega
    have hne : q ≠ 0 := ne_of_gt hpos
    have hnl : ¬ q < 0 := not_lt.2 h0
    simp only [roundDouble, hne, if_false, hs, pow_zero, Nat.mul_one, mul_one, hnl]
    set up := (-(binaryExponent q.num.natAbs q.den - 52)).toNat with hup
    have hupk : 52 ≤ up + k := by omega
    have hpow : (0 : ℚ) < (2 : ℚ) ^ up := by positivity
    obtain ⟨c1, c2⟩ := roundHalfEven_close (q.num.natAbs * 2 ^ up) q.den hden
    set m := roundHalfEven (q.num.natAbs * 2 ^ up) q.den with hm
    have c1q : 2 * ((m : ℚ) * q.den) ≤ 2 * ((q.num.natAbs : ℚ) * 2 ^ up) + q.den := by
      exact_mod_cast c1
    have c2q : 2 * ((q.num.natAbs : ℚ) * 2 ^ up) ≤ 2 * ((m : ℚ) * q.den) + q.den := by
      exact_mod_cast c2
    have hpk : (2 : ℚ) ^ 53 ≤ 2 ^ (up + 1) * 2 ^ k := by
      rw [← pow_add]
      exact pow_le_pow_right₀ (by norm_num) (by omega)
    have hnq : (q.num.natAbs : ℚ) = q * q.den := by
      rw [hcast]; exact (Rat.mul_den_eq_num q).symm
    rw [hnq] at c1q c2q
    have hkpos : (0 : ℚ) < 2 ^ k := by positivity
    have hbound : |(m : ℚ) / 2 ^ up - q| ≤ 1 / 2 ^ (up + 1) := by
      rw [abs_le]
      constructor
      · rw [neg_le_sub_iff_le_add, div_add' _ _ _ hpow.ne', le_div_iff₀ hpow]
        have : (1 : ℚ) / 2 ^ (up + 1) * 2 ^ up = 1 / 2 := by
          rw [pow_succ]; field_simp
        nlinarith
      · rw [sub_le_iff_le_add, div_le_iff₀ hpow]
        have : (1 : ℚ) / 2 ^ (up + 1) * 2 ^ up = 1 / 2 := by
          rw [pow_succ]; field_simp
        nlinarith
    refine le_trans hbound ?_
    rw [div_le_div_iff₀ (by positivity) (by norm_num)]
    linarith

theorem roundDouble_three : roundDouble 3 = 3 := by decide!

theorem roundDouble_forty : roundDouble 40 = 40 := by decide!

/-! ### Sums and means -/

theorem numAdd_zero_left (a : Num) : numAdd (some 0) a = a := by
  cases a <;> simp [numAdd]

theorem numAdd_some (a b : ℚ) : numAdd (some a) (some b) = some (a + b) := rfl

theorem foldl_numAdd_some (l : List ℚ) (a : ℚ) :
    (l.map some).foldl numAdd (some a) = some (a + l.sum) := by
  induction l generalizing a with
  | nil => simp
  | cons x xs ih => simp [numAdd_some, ih, add_assoc]

theorem mean_cons (x : Num) (xs : List Num) :
    mean (x :: xs) = numDiv (xs.foldl numAdd x) (xs.length + 1) := by
  simp [mean, numAdd_zero_left]

theorem mean_eq_exactMean (l : List Num) : mean l = (exactMean l).map roundDouble := by
  unfold mean exactMean numDiv
  cases l.foldl numAdd (some 0) with
  | none => rfl
  | some x => by_cases h : l.length = 0 <;> simp [h]

theorem exactMean_map_some (l : List ℚ) (h : l ≠ []) :
    exactMean (l.map some) = some (arithmeticMean l) := by
  have hlen : l.length ≠ 0 := by simpa using h
  simp [exactMean, foldl_numAdd_some, hlen, arithmeticMean]

theorem mean_map_some (l : List ℚ) (h : l ≠ []) :
    mean (l.map some) = some (roundDouble (arithmeticMean l)) := by
  rw [mean_eq_exactMean, exactMean_map_some l h]
  rfl

/-! ## Lemmas on dictionaries -/

section Dict

variable {κ α : Type} [DecidableEq κ]

theorem getProp_upsert (k : κ) (init : α) (upd : α → α) (obj : List (κ × α)) (k2 : κ) :
    getProp (upsert k init upd obj) k2 =
      if k = k2 then
        some (match getProp obj k with
          | some v => upd v
          | none => init)
      else getProp obj k2 := by
  induction obj with
  | nil => simp [upsert, getProp]
  | cons p rest ih =>
    obtain ⟨k1, v⟩ := p
    by_cases h : k1 = k
    · subst h
      by_cases h2 : k1 = k2 <;> simp [upsert, getProp, h2]
    · by_cases h2 : k = k2
      · subst h2
        simp [upsert, getProp, h, ih]
      · by_cases h3 : k1 = k2
        · subst h3
          simp [upsert, getProp, h, h2]
        · simp [upsert, getProp, h, h2, h3, ih]

theorem keys_upsert (k : κ) (init : α) (upd : α → α) (obj : List (κ × α)) :
    keys (upsert k init upd obj) = if k ∈ keys obj then keys obj else keys obj ++ [k] := by
  induction obj with
  | nil => simp [upsert, keys]
  | cons p rest ih =>
    obtain ⟨k1, v⟩ := p
    simp only [keys] at ih
    by_cases h : k1 = k
    · simp [upsert, keys, h]
    · have h2 : ¬ k = k1 := fun e => h e.symm
      by_cases h3 : k ∈ List.map Prod.fst rest <;> simp [upsert, keys, h, h2, h3, ih]

theorem mem_keys_upsert (k : κ) (init : α) (upd : α → α) (obj : List (κ × α)) (k2 : κ) :
    k2 ∈ keys (upsert k init upd obj) ↔ k2 ∈ keys obj ∨ k2 = k := by
  rw [keys_upsert]
  by_cases h : k ∈ keys obj
  · simp only [h, if_true]
    constructor
    · exact Or.inl
    · rintro (h2 | h2)
      · exact h2
      · exact h2 ▸ h
  · simp [h]

theorem nodup_keys_upsert (k : κ) (init : α) (upd : α → α) (obj : List (κ × α))
    (h : (keys obj).Nodup) : (keys (upsert k init upd obj)).Nodup := by
  rw [keys_upsert]
  by_cases h2 : k ∈ keys obj
  · simpa [h2] using h
  · simp only [h2, if_false]
    exact List.Nodup.append h (List.nodup_singleton k) (by simpa using h2)

end Dict

/-! ## Lemmas on the buckets -/

section Buckets

variable {κ α ρ : Type} [DecidableEq κ]

theorem getProp_foldl_pushProp (key : ρ → κ) (val : ρ → α) (rows : List ρ)
    (obj : List (κ × List α)) (k : κ) :
    (getProp (rows.foldl (fun o r => pushProp o (key r) (val r)) obj) k).getD [] =
      (getProp obj k).getD [] ++ (rows.filter (fun r => key r = k)).map val := by
  induction rows generalizing obj with
  | nil => simp
  | cons r rs ih =>
    rw [List.foldl_cons, ih, pushProp, getProp_upsert]
    by_cases h : key r = k
    · subst h
      cases hg : getProp obj (key r) <;> simp
    · simp [h]

theorem mem_keys_foldl_pushProp (key : ρ → κ) (val : ρ → α) (rows : List ρ)
    (obj : List (κ × List α)) (k : κ) :
    k ∈ keys (rows.foldl (fun o r => pushProp o (key r) (val r)) obj) ↔
      k ∈ keys obj ∨ ∃ r ∈ rows, key r = k := by
  induction rows generalizing obj with
  | nil => simp
  | cons r rs ih =>
    rw [List.foldl_cons, ih, pushProp, mem_keys_upsert]
    constructor
    · rintro ((h | h) | ⟨r2, h2, h3⟩)
      · exact Or.inl h
      · exact Or.inr ⟨r, List.mem_cons_self _ _, h.symm⟩
      · exact Or.inr ⟨r2, List.mem_cons_of_mem _ h2, h3⟩
    · rintro (h | ⟨r2, h2, h3⟩)
      · exact Or.inl (Or.inl h)
      · rcases List.mem_cons.1 h2 with h4 | h4
        · exact Or.inl (Or.inr (by rw [← h3, h4]))
        · exact Or.inr ⟨r2, h4, h3⟩

theorem nodup_keys_foldl_pushProp (key : ρ → κ) (val : ρ → α) (rows : List ρ)
    (obj : List (κ × List α)) (h : (keys obj).Nodup) :
    (keys (rows.foldl (fun o r => pushProp o (key r) (val r)) obj)).Nodup := by
  induction rows generalizing obj with
  | nil => simpa using h
  | cons r rs ih =>
    rw [List.foldl_cons]
    exact ih _ (nodup_keys_upsert _ _ _ _ h)

end Buckets

/-- The trend of a bucket dictionary filled from rows whose keys are indices below `n`: one
mean for each index that occurs, in ascending order of index. -/
theorem trend_foldl_pushProp {ρ : Type} (key : ρ → Option ℕ) (val : ρ → Num) (rows : List ρ)
    (n : ℕ) (hkey : ∀ r ∈ rows, ∃ d, d < n ∧ key r = some d) :
    trend (rows.foldl (fun o r => pushProp o (key r) (val r)) []) =
      ((List.range n).filter (fun d => decide (∃ r ∈ rows, key r = some d))).map
        (fun d => mean ((rows.filter (fun r => key r = some d)).map val)) := by
  have hsorted :
      ((keys (rows.foldl (fun o r => pushProp o (key r) (val r)) [])).insertionSort keyLe) =
        ((List.range n).filter (fun d => decide (∃ r ∈ rows, key r = some d))).map some := by
    apply List.eq_of_perm_of_sorted (r := keyLe)
    · refine (List.perm_insertionSort keyLe _).trans ?_
      rw [List.perm_ext_iff_of_nodup (nodup_keys_foldl_pushProp key val rows [] (by simp [keys]))
        (((List.nodup_range n).filter _).map (Option.some_injective ℕ))]
      intro k
      rw [mem_keys_foldl_pushProp]
      simp only [keys, List.map_nil, List.not_mem_nil, false_or, List.mem_map, List.mem_filter,
        List.mem_range, decide_eq_true_eq]
      constructor
      · rintro ⟨r, hr, hk⟩
        obtain ⟨d, hd, hd2⟩ := hkey r hr
        exact ⟨d, ⟨hd, r, hr, hd2⟩, by rw [← hk, hd2]⟩
      · rintro ⟨d, ⟨_, r, hr, hk⟩, rfl⟩
        exact ⟨r, hr, hk⟩
    · exact List.sorted_insertionSort keyLe _
    · have h := (List.sorted_le_range n).filter (fun d => decide (∃ r ∈ rows, key r = some d))
      exact List.pairwise_map.2 (h.imp (fun hab => by simpa [keyLe] using hab))
  unfold trend
  rw [hsorted, List.map_map]
  apply List.map_congr_left
  intro d _
  simp [getProp_foldl_pushProp, getProp]

/-! ## The loop, accumulator by accumulator -/

theorem foldl_forEachBody_weeklyData (D : JsDate) (rows : List Row) (acc : Acc) :
    (rows.foldl (forEachBody D) acc).weeklyData =
      rows.foldl (fun o r => pushProp o (D.getDay r.date) (score r.mood)) acc.weeklyData := by
  induction rows generalizing acc with
  | nil => rfl
  | cons r rs ih => rw [List.foldl_cons, ih]; rfl

theorem foldl_forEachBody_monthlyData (D : JsDate) (rows : List Row) (acc : Acc) :
    (rows.foldl (forEachBody D) acc).monthlyData =
      rows.foldl (fun o r => pushProp o (D.getMonth r.date) (score r.mood)) acc.monthlyData := by
  induction rows generalizing acc with
  | nil => rfl
  | cons r rs ih => rw [List.foldl_cons, ih]; rfl

theorem foldl_forEachBody_stressLevels (D : JsDate) (rows : List Row) (acc : Acc) :
    (rows.foldl (forEachBody D) acc).stressLevels =
      rows.foldl (fun o r => pushProp o (D.getDay r.date) (stress (score r.mood)))
        acc.stressLevels := by
  induction rows generalizing acc with
  | nil => rfl
  | cons r rs ih => rw [List.foldl_cons, ih]; rfl

theorem foldl_forEachBody_moodScores (D : JsDate) (rows : List Row) (acc : Acc) :
    (rows.foldl (forEachBody D) acc).moodScores =
      acc.moodScores ++ rows.map (fun r => score r.mood) := by
  induction rows generalizing acc with
  | nil => simp
  | cons r rs ih => rw [List.foldl_cons, ih]; simp [forEachBody]

theorem foldl_forEachBody_dailyData (D : JsDate) (rows : List Row) (acc : Acc) :
    (rows.foldl (forEachBody D) acc).dailyData =
      rows.foldl (fun o r => addDaily o r.date (score r.mood) (stress (score r.mood)))
        acc.dailyData := by
  induction rows generalizing acc with
  | nil => rfl
  | cons r rs ih => rw [List.foldl_cons, ih]; rfl

/-! ## Lemmas on `dailyData` -/

theorem entryAfter_some (e : DailyEntry) (rs : List Row) :
    entryAfter (some e) rs =
      some
        { totalScore := (rs.map (fun r => score r.mood)).foldl numAdd e.totalScore,
          totalStress := (rs.map (fun r => stress (score r.mood))).foldl numAdd e.totalStress,
          count := e.count + rs.length } := by
  induction rs generalizing e with
  | nil => simp [entryAfter]
  | cons r rs ih =>
    have h := ih (e.add (score r.mood) (stress (score r.mood)))
    simp only [entryAfter, List.foldl_cons] at h ⊢
    rw [h]
    simp [DailyEntry.add, Nat.add_assoc, Nat.add_comm 1]

theorem entryAfter_none_cons (r : Row) (rs : List Row) :
    entryAfter none (r :: rs) =
      some
        { totalScore := (rs.map (fun r => score r.mood)).foldl numAdd (score r.mood),
          totalStress :=
            (rs.map (fun r => stress (score r.mood))).foldl numAdd (stress (score r.mood)),
          count := rs.length + 1 } := by
  have h := entryAfter_some (DailyEntry.first (score r.mood) (stress (score r.mood))) rs
  simp only [entryAfter, List.foldl_cons] at h ⊢
  rw [h]
  simp [DailyEntry.first, Nat.add_comm 1]

theorem getProp_foldl_addDaily (rows : List Row) (obj : List (String × DailyEntry))
    (d : String) (hd : d ∉ objectPrototypeKeys) :
    getProp (rows.foldl (fun o r => addDaily o r.date (score r.mood) (stress (score r.mood)))
        obj) d =
      entryAfter (getProp obj d) (rows.filter (fun r => r.date = d)) := by
  induction rows generalizing obj with
  | nil => simp [entryAfter]
  | cons r rs ih =>
    rw [List.foldl_cons, ih]
    by_cases hp : r.date ∈ objectPrototypeKeys
    · have hne : ¬ r.date = d := fun e => hd (e ▸ hp)
      simp [addDaily, hp, hne]
    · by_cases h : r.date = d
      · subst h
        simp only [addDaily, hp, if_false, getProp_upsert, if_true, entryAfter, decide_True,
          List.filter_cons_of_pos, List.foldl_cons]
        cases getProp obj r.date <;> rfl
      · simp [addDaily, hp, h, getProp_upsert]

theorem mem_keys_foldl_addDaily (rows : List Row) (obj : List (String × DailyEntry))
    (d : String) :
    d ∈ keys (rows.foldl (fun o r => addDaily o r.date (score r.mood) (stress (score r.mood)))
        obj) ↔
      d ∈ keys obj ∨ (d ∉ objectPrototypeKeys ∧ ∃ r ∈ rows, r.date = d) := by
  induction rows generalizing obj with
  | nil => simp
  | cons r rs ih =>
    rw [List.foldl_cons, ih]
    by_cases hp : r.date ∈ objectPrototypeKeys
    · simp only [addDaily, hp, if_true, List.mem_cons, exists_eq_or_imp]
      constructor
      · rintro (h | ⟨h1, h2⟩)
        · exact Or.inl h
        · exact Or.inr ⟨h1, Or.inr h2⟩
      · rintro (h | ⟨h1, h2 | h2⟩)
        · exact Or.inl h
        · exact absurd (h2 ▸ hp) h1
        · exact Or.inr ⟨h1, h2⟩
    · simp only [addDaily, hp, if_false, mem_keys_upsert, List.mem_cons, exists_eq_or_imp]
      constructor
      · rintro ((h | h) | ⟨h1, h2⟩)
        · exact Or.inl h
        · exact Or.inr ⟨h ▸ hp, Or.inl h.symm⟩
        · exact Or.inr ⟨h1, Or.inr h2⟩
      · rintro (h | ⟨h1, h2 | h2⟩)
        · exact Or.inl (Or.inl h)
        · exact Or.inl (Or.inr h2.symm)
        · exact Or.inr ⟨h1, h2⟩

theorem nodup_keys_foldl_addDaily (rows : List Row) (obj : List (String × DailyEntry))
    (h : (keys obj).Nodup) :
    (keys (rows.foldl (fun o r => addDaily o r.date (score r.mood) (stress (score r.mood)))
        obj)).Nodup := by
  induction rows generalizing obj with
  | nil => simpa using h
  | cons r rs ih =>
    rw [List.foldl_cons]
    apply ih
    unfold addDaily
    split
    · exact h
    · exact nodup_keys_upsert _ _ _ _ h

/-! ## Lemmas on `dailyAnalytics` -/

theorem dates_dailyAnalytics (dd : List (String × DailyEntry)) :
    (dailyAnalytics dd).map DayStat.date = (keys dd).insertionSort (fun a b => a ≤ b) := by
  simp [dailyAnalytics, dayStat, Function.comp_def]

theorem mem_dailyAnalytics (dd : List (String × DailyEntry)) (e : DayStat) :
    e ∈ dailyAnalytics dd ↔
      e.date ∈ keys dd ∧ e = dayStat e.date ((getProp dd e.date).getD ⟨none, none, 0⟩) := by
  unfold dailyAnalytics
  rw [List.mem_map]
  constructor
  · rintro ⟨d, hd, rfl⟩
    exact ⟨((List.perm_insertionSort _ _).mem_iff).1 hd, rfl⟩
  · rintro ⟨h1, h2⟩
    exact ⟨e.date, ((List.perm_insertionSort _ _).mem_iff).2 h1, h2.symm⟩

theorem mem_keys_dailyData (D : JsDate) (rows : List Row) (d : String) :
    d ∈ keys (accumulate D rows).dailyData ↔
      d ∉ objectPrototypeKeys ∧ ∃ r ∈ rows, r.date = d := by
  rw [accumulate, foldl_forEachBody_dailyData, mem_keys_foldl_addDaily]
  simp [Acc.empty, keys]

theorem nodup_keys_dailyData (D : JsDate) (rows : List Row) :
    (keys (accumulate D rows).dailyData).Nodup := by
  rw [accumulate, foldl_forEachBody_dailyData]
  exact nodup_keys_foldl_addDaily rows _ (by simp [Acc.empty, keys])

/-- The element of `dailyAnalytics` computed for a date that occurs in the rows: the rounded
means of the scores and of the stress values of the rows of that date. -/
theorem dayStat_dailyData (D : JsDate) (rows : List Row) (d : String)
    (hd : d ∈ keys (accumulate D rows).dailyData) :
    dayStat d ((getProp (accumulate D rows).dailyData d).getD ⟨none, none, 0⟩) =
      { date := d,
        avgMood := plusToFixed1 (mean ((rowsOn d rows).map (fun r => score r.mood))),
        stressLevel :=
          plusToFixed1 (mean ((rowsOn d rows).map (fun r => stress (score r.mood)))) } := by
  obtain ⟨hp, r0, hr0, hr0d⟩ := (mem_keys_dailyData D rows d).1 hd
  rw [accumulate, foldl_forEachBody_dailyData, getProp_foldl_addDaily rows _ d hp]
  have hne : rowsOn d rows ≠ [] := by
    intro h
    have : r0 ∈ rowsOn d rows := by simp [rowsOn, hr0, hr0d]
    rw [h] at this
    exact List.not_mem_nil _ this
  unfold rowsOn at hne ⊢
  cases hf : rows.filter (fun r => r.date = d) with
  | nil => exact absurd hf hne
  | cons r rs =>
    simp only [Acc.empty, getProp, entryAfter_none_cons, Option.getD_some, dayStat,
      List.map_cons, mean_cons, List.length_map]

theorem dailyAnalytics_ne_nil (D : JsDate) (rows : List Row) (hne : rows ≠ [])
    (hdate : ∀ r ∈ rows, r.date ∉ objectPrototypeKeys) :
    dailyAnalytics (accumulate D rows).dailyData ≠ [] := by
  obtain ⟨r, hr⟩ := List.exists_mem_of_ne_nil rows hne
  have hk : r.date ∈ keys (accumulate D rows).dailyData :=
    (mem_keys_dailyData D rows r.date).2 ⟨hdate r hr, r, hr, rfl⟩
  have hm : r.date ∈ (dailyAnalytics (accumulate D rows).dailyData).map DayStat.date := by
    rw [dates_dailyAnalytics]
    exact ((List.perm_insertionSort _ _).mem_iff).2 hk
  intro h
  rw [h] at hm
  exact List.not_mem_nil _ hm

/-- The dates of `dailyAnalytics` are strictly ascending. -/
theorem sorted_dates_dailyAnalytics (D : JsDate) (rows : List Row) :
    ((dailyAnalytics (accumulate D rows).dailyData).map DayStat.date).Sorted
      (fun a b => a < b) := by
  rw [dates_dailyAnalytics]
  exact (List.sorted_insertionSort (fun a b : String => a ≤ b) _).lt_of_le
    ((List.perm_insertionSort _ _).nodup_iff.2 (nodup_keys_dailyData D rows))

/-! ## Numeric scores -/

theorem score_of_not_inherited (mood : String) (h : mood ∉ objectPrototypeKeys) :
    ∃ s : ℚ, score mood = some s ∧ (s = 1 ∨ s = 2 ∨ s = 3 ∨ s = 4 ∨ s = 5) := by
  unfold score
  by_cases h1 : mood = "Overwhelmed"
  · subst h1; exact ⟨1, by simp [moodMapping, List.lookup], by simp⟩
  by_cases h2 : mood = "Sad"
  · subst h2; exact ⟨2, by simp [moodMapping, List.lookup], by simp⟩
  by_cases h3 : mood = "Neutral"
  · subst h3; exact ⟨3, by simp [moodMapping, List.lookup], by simp⟩
  by_cases h4 : mood = "Happy"
  · subst h4; exact ⟨4, by simp [moodMapping, List.lookup], by simp⟩
  by_cases h5 : mood = "Ecstatic"
  · subst h5; exact ⟨5, by simp [moodMapping, List.lookup], by simp⟩
  refine ⟨3, ?_, by simp⟩
  have e1 : (mood == "Overwhelmed") = false := by simpa using h1
  have e2 : (mood == "Sad") = false := by simpa using h2
  have e3 : (mood == "Neutral") = false := by simpa using h3
  have e4 : (mood == "Happy") = false := by simpa using h4
  have e5 : (mood == "Ecstatic") = false := by simpa using h5
  simp [moodMapping, List.lookup, e1, e2, e3, e4, e5, h]

theorem exists_map_some (l : List Num) (h : ∀ x ∈ l, x ≠ none) :
    ∃ qs : List ℚ, l = qs.map some := by
  induction l with
  | nil => exact ⟨[], rfl⟩
  | cons x xs ih =>
    obtain ⟨qs, hqs⟩ := ih (fun y hy => h y (List.mem_cons_of_mem _ hy))
    cases x with
    | none => exact absurd rfl (h none (List.mem_cons_self _ _))
    | some q => exact ⟨q :: qs, by simp [hqs]⟩

theorem mean_ne_none (l : List Num) (hne : l ≠ []) (h : ∀ x ∈ l, x ≠ none) :
    mean l ≠ none := by
  obtain ⟨qs, rfl⟩ := exists_map_some l h
  have hq : qs ≠ [] := by
    intro e
    apply hne
    simp [e]
  rw [mean_map_some qs hq]
  simp

theorem plusToFixed1_ne_none (x : Num) (h : x ≠ none) : plusToFixed1 x ≠ none := by
  cases x with
  | none => exact absurd rfl h
  | some q =>
    by_cases hq : q < 0 <;> simp [plusToFixed1, hq]

/-- With numeric scores every element of `dailyAnalytics` has a numeric `stressLevel`. -/
theorem stressLevel_ne_none (D : JsDate) (rows : List Row)
    (hmood : ∀ r ∈ rows, r.mood ∉ objectPrototypeKeys) (e : DayStat)
    (he : e ∈ dailyAnalytics (accumulate D rows).dailyData) : e.stressLevel ≠ none := by
  obtain ⟨hk, heq⟩ := (mem_dailyAnalytics _ e).1 he
  rw [dayStat_dailyData D rows e.date hk] at heq
  obtain ⟨_, r0, hr0, hr0d⟩ := (mem_keys_dailyData D rows e.date).1 hk
  have hs : e.stressLevel =
      plusToFixed1 (mean ((rowsOn e.date rows).map (fun r => stress (score r.mood)))) := by
    conv_lhs => rw [heq]
  rw [hs]
  apply plusToFixed1_ne_none
  apply mean_ne_none
  · intro h
    have : r0 ∈ rowsOn e.date rows := by simp [rowsOn, hr0, hr0d]
    simp only [List.map_eq_nil_iff] at h
    rw [h] at this
    exact List.not_mem_nil _ this
  · intro x hx
    obtain ⟨r, hr, rfl⟩ := List.mem_map.1 hx
    have hr2 : r ∈ rows := (List.mem_filter.1 hr).1
    obtain ⟨q, hq, _⟩ := score_of_not_inherited r.mood (hmood r hr2)
    simp [hq, stress]

/-! ## The fold that selects the day of highest stress -/

theorem numGe_of_numGt {a b : Num} (h : numGt a b = true) : numGe a b := by
  cases a <;> cases b <;> simp_all [numGt, numGe]
  exact le_of_lt h

theorem not_numGe_of_numGt {a b : Num} (h : numGt a b = true) : ¬ numGe b a := by
  cases a <;> cases b <;> simp_all [numGt, numGe]

theorem numGe_of_not_numGt {a b : Num} (ha : a ≠ none) (hb : b ≠ none)
    (h : ¬ numGt a b = true) : numGe b a := by
  cases a <;> cases b <;> simp_all [numGt, numGe]

theorem numGe_refl {a : Num} (ha : a ≠ none) : numGe a a := by
  cases a <;> simp_all [numGe]

theorem numGe_trans {a b c : Num} (h1 : numGe a b) (h2 : numGe b c) : numGe a c := by
  cases a <;> cases b <;> cases c <;> simp_all [numGe]
  exact le_trans h2 h1

/-- On numeric stress levels the fold of `pickHigher` returns the last element of maximal
stress: everything before it is not higher, everything after it is strictly lower. -/
theorem foldl_pickHigher_spec (x : DayStat) (xs : List DayStat)
    (hnum : ∀ e ∈ x :: xs, e.stressLevel ≠ none) :
    ∃ l1 l2, x :: xs = l1 ++ xs.foldl pickHigher x :: l2 ∧
      (∀ e ∈ l1, numGe (xs.foldl pickHigher x).stressLevel e.stressLevel) ∧
      (∀ e ∈ l2, numGt (xs.foldl pickHigher x).stressLevel e.stressLevel = true) := by
  induction xs using List.reverseRecOn with
  | nil => exact ⟨[], [], rfl, by simp, by simp⟩
  | append_singleton ys y ih =>
    have hnum2 : ∀ e ∈ x :: ys, e.stressLevel ≠ none := by
      intro e he
      apply hnum e
      rw [← List.cons_append]
      exact List.mem_append_left _ he
    have hy : y.stressLevel ≠ none := hnum y (by simp)
    obtain ⟨l1, l2, hsplit, h1, h2⟩ := ih hnum2
    rw [List.foldl_append, List.foldl_cons, List.foldl_nil]
    have hm : (ys.foldl pickHigher x).stressLevel ≠ none :=
      hnum2 _ (by rw [hsplit]; simp)
    by_cases hgt : numGt (ys.foldl pickHigher x).stressLevel y.stressLevel = true
    · have hp : pickHigher (ys.foldl pickHigher x) y = ys.foldl pickHigher x := by
        simp [pickHigher, hgt]
      rw [hp]
      refine ⟨l1, l2 ++ [y], ?_, h1, ?_⟩
      · rw [← List.cons_append, hsplit]; simp
      · intro e he
        rcases List.mem_append.1 he with h | h
        · exact h2 e h
        · rw [List.mem_singleton.1 h]; exact hgt
    · have hp : pickHigher (ys.foldl pickHigher x) y = y := by
        simp [pickHigher, hgt]
      rw [hp]
      refine ⟨x :: ys, [], by simp, ?_, by simp⟩
      intro e he
      have hym : numGe y.stressLevel (ys.foldl pickHigher x).stressLevel :=
        numGe_of_not_numGt hm hy hgt
      rw [hsplit] at he
      rcases List.mem_append.1 he with h | h
      · exact numGe_trans hym (h1 e h)
      · rcases List.mem_cons.1 h with h | h
        · rw [h]; exact hym
        · exact numGe_trans hym (numGe_of_numGt (h2 e h))

theorem aggregate_of_cons (D : JsDate) (rows : List Row) (x : DayStat) (xs : List DayStat)
    (h : dailyAnalytics (accumulate D rows).dailyData = x :: xs) :
    aggregate D rows =
      some
        { dailyAnalytics := x :: xs,
          weeklyMoodTrend := trend (accumulate D rows).weeklyData,
          monthlyMoodTrend := trend (accumulate D rows).monthlyData,
          weeklyStressLevels := trend (accumulate D rows).stressLevels,
          insights :=
            { avgMood := avgMoodOverall (accumulate D rows).moodScores,
              highestStressDay := (xs.foldl pickHigher x).date } } := by
  simp [aggregate, h, highestStressDayObj, reduce1]

theorem not_inherited_of_isIsoDate (s : String) (h : isIsoDate s = true) :
    s ∉ objectPrototypeKeys := by
  intro hmem
  simp only [objectPrototypeKeys, List.mem_cons, List.mem_singleton, List.not_mem_nil,
    or_false] at hmem
  rcases hmem with rfl | rfl | rfl | rfl | rfl | rfl | rfl | rfl | rfl | rfl | rfl | rfl <;>
    exact absurd h (by decide)

/-! ## Rounding, single rows, date built-ins -/

theorem plusToFixed1_three : plusToFixed1 (some 3) = some 3 := by decide!

theorem plusToFixed1_forty : plusToFixed1 (some 40) = some 40 := by decide!

theorem toFixed1_three : toFixed1 (some 3) = "3.0" := by decide!

/-- The result of the aggregation of a single row whose date is an own key. -/
theorem aggregate_singleton (D : JsDate) (date mood : String)
    (hdate : date ∉ objectPrototypeKeys) :
    aggregate D [⟨date, mood⟩] =
      some
        { dailyAnalytics :=
            [⟨date, plusToFixed1 (numDiv (score mood) 1),
              plusToFixed1 (numDiv (stress (score mood)) 1)⟩],
          weeklyMoodTrend := [mean [score mood]],
          monthlyMoodTrend := [mean [score mood]],
          weeklyStressLevels := [mean [stress (score mood)]],
          insights := { avgMood := toFixed1 (mean [score mood]), highestStressDay := date } } := by
  simp [aggregate, accumulate, forEachBody, Acc.empty, addDaily, hdate, upsert, pushProp,
    dailyAnalytics, keys, getProp, dayStat, DailyEntry.first, highestStressDayObj, reduce1,
    trend, avgMoodOverall]

/-- On a non-negative number `+x.toFixed(1)` is a multiple of one tenth at distance at most
one twentieth of `x`: `x` rounded to one decimal place. -/
theorem plusToFixed1_rounds (x : ℚ) (hx : 0 ≤ x) :
    ∃ n : ℕ, plusToFixed1 (some x) = some ((n : ℚ) / 10) ∧ |(n : ℚ) / 10 - x| ≤ 1 / 20 := by
  have hnot : ¬ x < 0 := not_lt.2 hx
  refine ⟨fixedTenths x, by simp [plusToFixed1, hnot], ?_⟩
  have hfl : Rat.floor (x * 10 + 1 / 2) = ⌊x * 10 + 1 / 2⌋ := rfl
  have h0 : 0 ≤ ⌊x * 10 + 1 / 2⌋ := Int.floor_nonneg.2 (by positivity)
  have hcast : ((fixedTenths x : ℕ) : ℚ) = ((⌊x * 10 + 1 / 2⌋ : ℤ) : ℚ) := by
    unfold fixedTenths
    rw [hfl]
    have := Int.toNat_of_nonneg h0
    exact_mod_cast congrArg (fun z : ℤ => (z : ℚ)) this
  rw [hcast]
  have h1 := Int.floor_le (x * 10 + 1 / 2)
  have h2 := Int.lt_floor_add_one (x * 10 + 1 / 2)
  rw [abs_le]
  constructor <;> linarith

theorem month_of_parseIsoDate (s : String) (y m d : ℕ) (h : parseIsoDate s = some (y, m, d)) :
    1 ≤ m ∧ m ≤ 12 := by
  unfold parseIsoDate at h
  split at h
  · split at h
    · simp only at h
      split at h
      · rename_i hc
        simp only [Option.some.injEq, Prod.mk.injEq] at h
        obtain ⟨_, rfl, _⟩ := h
        exact ⟨hc.1, hc.2.1⟩
      · cases h
    · cases h
  · cases h

/-- The built-ins of a UTC server return indices in range on every ISO calendar date. -/
theorem utc_inRange : utc.InRange := by
  intro s hs
  unfold isIsoDate at hs
  obtain ⟨p, hp⟩ := Option.isSome_iff_exists.1 hs
  obtain ⟨y, m, d⟩ := p
  have hm := month_of_parseIsoDate s y m d hp
  refine ⟨⟨weekdayOf y m d, ?_, by simp [utc, hp]⟩, ⟨m - 1, by omega, by simp [utc, hp]⟩⟩
  unfold weekdayOf
  exact Nat.mod_lt _ (by norm_num)

/-- With ISO dates the aggregation of a non-empty result set returns, and its arrays are those
derived from the accumulators. -/
theorem aggregate_of_isIsoDate (D : JsDate) (rows : List Row) (hne : rows ≠ [])
    (hdate : ∀ r ∈ rows, isIsoDate r.date = true) :
    ∃ a, aggregate D rows = some a ∧
      a.dailyAnalytics = dailyAnalytics (accumulate D rows).dailyData ∧
      a.weeklyMoodTrend = trend (accumulate D rows).weeklyData ∧
      a.monthlyMoodTrend = trend (accumulate D rows).monthlyData ∧
      a.weeklyStressLevels = trend (accumulate D rows).stressLevels ∧
      a.insights.avgMood = avgMoodOverall (accumulate D rows).moodScores := by
  have hplain : ∀ r ∈ rows, r.date ∉ objectPrototypeKeys :=
    fun r hr => not_inherited_of_isIsoDate _ (hdate r hr)
  cases hd : dailyAnalytics (accumulate D rows).dailyData with
  | nil => exact absurd hd (dailyAnalytics_ne_nil D rows hne hplain)
  | cons x xs => exact ⟨_, aggregate_of_cons D rows x xs hd, rfl, rfl, rfl, rfl, rfl⟩

/-! ## Order of the rows -/

theorem numAdd_right_comm (z x y : Num) : numAdd (numAdd z x) y = numAdd (numAdd z y) x := by
  cases z <;> cases x <;> cases y <;> simp [numAdd, add_right_comm]

theorem mean_perm {l1 l2 : List Num} (h : l1.Perm l2) : mean l1 = mean l2 := by
  unfold mean
  rw [h.foldl_eq' (fun x _ y _ z => numAdd_right_comm z x y) (some 0), h.length_eq]

/-- The trend of a bucket dictionary filled from rows, bucket by bucket. -/
theorem trend_foldl_pushProp_eq {ρ : Type} (key : ρ → Option ℕ) (val : ρ → Num)
    (rows : List ρ) :
    trend (rows.foldl (fun o r => pushProp o (key r) (val r)) []) =
      ((keys (rows.foldl (fun o r => pushProp o (key r) (val r)) [])).insertionSort keyLe).map
        (fun k => mean ((rows.filter (fun r => key r = k)).map val)) := by
  unfold trend
  apply List.map_congr_left
  intro k _
  simp [getProp_foldl_pushProp, getProp]

/-- The sorted weekday (or month) keys depend only on the keys that occur in the rows. -/
theorem sortedKeys_foldl_pushProp {ρ : Type} (key : ρ → Option ℕ) (val1 val2 : ρ → Num)
    (rows1 rows2 : List ρ) (h : ∀ k, (∃ r ∈ rows1, key r = k) ↔ ∃ r ∈ rows2, key r = k) :
    (keys (rows1.foldl (fun o r => pushProp o (key r) (val1 r)) [])).insertionSort keyLe =
      (keys (rows2.foldl (fun o r => pushProp o (key r) (val2 r)) [])).insertionSort keyLe := by
  apply List.eq_of_perm_of_sorted (r := keyLe)
  · refine (List.perm_insertionSort keyLe _).trans
      (List.Perm.trans ?_ (List.perm_insertionSort keyLe _).symm)
    rw [List.perm_ext_iff_of_nodup
      (nodup_keys_foldl_pushProp key val1 rows1 [] (by simp [keys]))
      (nodup_keys_foldl_pushProp key val2 rows2 [] (by simp [keys]))]
    intro k
    rw [mem_keys_foldl_pushProp, mem_keys_foldl_pushProp]
    simp only [keys, List.map_nil, List.not_mem_nil, false_or]
    exact h k
  · exact List.sorted_insertionSort keyLe _
  · exact List.sorted_insertionSort keyLe _

theorem trend_foldl_pushProp_perm {ρ : Type} (key : ρ → Option ℕ) (val : ρ → Num)
    {rows1 rows2 : List ρ} (h : rows1.Perm rows2) :
    trend (rows1.foldl (fun o r => pushProp o (key r) (val r)) []) =
      trend (rows2.foldl (fun o r => pushProp o (key r) (val r)) []) := by
  rw [trend_foldl_pushProp_eq, trend_foldl_pushProp_eq,
    sortedKeys_foldl_pushProp key val val rows1 rows2
      (fun k => ⟨fun ⟨r, hr, hk⟩ => ⟨r, h.mem_iff.1 hr, hk⟩,
        fun ⟨r, hr, hk⟩ => ⟨r, h.mem_iff.2 hr, hk⟩⟩)]
  apply List.map_congr_left
  intro k _
  exact mean_perm ((h.filter _).map val)

theorem dailyAnalytics_perm (D : JsDate) {rows1 rows2 : List Row} (h : rows1.Perm rows2) :
    dailyAnalytics (accumulate D rows1).dailyData =
      dailyAnalytics (accumulate D rows2).dailyData := by
  have hmem : ∀ d, d ∈ keys (accumulate D rows1).dailyData ↔
      d ∈ keys (accumulate D rows2).dailyData := by
    intro d
    rw [mem_keys_dailyData, mem_keys_dailyData]
    exact and_congr Iff.rfl
      ⟨fun ⟨r, hr, hk⟩ => ⟨r, h.mem_iff.1 hr, hk⟩, fun ⟨r, hr, hk⟩ => ⟨r, h.mem_iff.2 hr, hk⟩⟩
  have hkeys : (keys (accumulate D rows1).dailyData).insertionSort (fun a b => a ≤ b) =
      (keys (accumulate D rows2).dailyData).insertionSort (fun a b => a ≤ b) := by
    apply List.eq_of_perm_of_sorted (r := fun a b : String => a ≤ b)
    · refine (List.perm_insertionSort _ _).trans
        (List.Perm.trans ?_ (List.perm_insertionSort _ _).symm)
      rw [List.perm_ext_iff_of_nodup (nodup_keys_dailyData D rows1)
        (nodup_keys_dailyData D rows2)]
      exact hmem
    · exact List.sorted_insertionSort _ _
    · exact List.sorted_insertionSort _ _
  unfold dailyAnalytics
  rw [hkeys]
  apply List.map_congr_left
  intro d hd
  have hd2 : d ∈ keys (accumulate D rows2).dailyData :=
    ((List.perm_insertionSort _ _).mem_iff).1 hd
  rw [dayStat_dailyData D rows1 d ((hmem d).2 hd2), dayStat_dailyData D rows2 d hd2]
  have hp : (rowsOn d rows1).Perm (rowsOn d rows2) := h.filter _
  rw [mean_perm (hp.map (fun r => score r.mood)),
    mean_perm (hp.map (fun r => stress (score r.mood)))]

theorem moodScores_accumulate (D : JsDate) (rows : List Row) :
    (accumulate D rows).moodScores = rows.map (fun r => score r.mood) := by
  rw [accumulate, foldl_forEachBody_moodScores]
  simp [Acc.empty]

/-- The aggregation does not depend on the order of the rows. -/
theorem aggregate_congr_perm (D : JsDate) {rows1 rows2 : List Row} (h : rows1.Perm rows2) :
    aggregate D rows1 = aggregate D rows2 := by
  have h1 := dailyAnalytics_perm D h
  have h2 : trend (accumulate D rows1).weeklyData = trend (accumulate D rows2).weeklyData := by
    rw [accumulate, accumulate, foldl_forEachBody_weeklyData, foldl_forEachBody_weeklyData]
    exact trend_foldl_pushProp_perm _ _ h
  have h3 : trend (accumulate D rows1).monthlyData = trend (accumulate D rows2).monthlyData := by
    rw [accumulate, accumulate, foldl_forEachBody_monthlyData, foldl_forEachBody_monthlyData]
    exact trend_foldl_pushProp_perm _ _ h
  have h4 : trend (accumulate D rows1).stressLevels =
      trend (accumulate D rows2).stressLevels := by
    rw [accumulate, accumulate, foldl_forEachBody_stressLevels, foldl_forEachBody_stressLevels]
    exact trend_foldl_pushProp_perm _ _ h
  have h5 : avgMoodOverall (accumulate D rows1).moodScores =
      avgMoodOverall (accumulate D rows2).moodScores := by
    rw [moodScores_accumulate, moodScores_accumulate]
    unfold avgMoodOverall
    rw [mean_perm (h.map _)]
  simp only [aggregate, h1, h2, h3, h4, h5]

/-! ## Means of numeric scores -/

theorem fixedTenths_close (x : ℚ) (hx : 0 ≤ x) : |((fixedTenths x : ℕ) : ℚ) / 10 - x| ≤ 1 / 20 := by
  have hfl : Rat.floor (x * 10 + 1 / 2) = ⌊x * 10 + 1 / 2⌋ := rfl
  have h0 : 0 ≤ ⌊x * 10 + 1 / 2⌋ := Int.floor_nonneg.2 (by positivity)
  have hcast : ((fixedTenths x : ℕ) : ℚ) = ((⌊x * 10 + 1 / 2⌋ : ℤ) : ℚ) := by
    unfold fixedTenths
    rw [hfl]
    have := Int.toNat_of_nonneg h0
    exact_mod_cast congrArg (fun z : ℤ => (z : ℚ)) this
  rw [hcast]
  have h1 := Int.floor_le (x * 10 + 1 / 2)
  have h2 := Int.lt_floor_add_one (x * 10 + 1 / 2)
  rw [abs_le]
  constructor <;> linarith

theorem fixedTenths_bounds (x : ℚ) (h1 : 1 ≤ x) (h5 : x ≤ 5) :
    10 ≤ fixedTenths x ∧ fixedTenths x ≤ 50 := by
  have hfl : Rat.floor (x * 10 + 1 / 2) = ⌊x * 10 + 1 / 2⌋ := rfl
  have hlo : (10 : ℤ) ≤ ⌊x * 10 + 1 / 2⌋ := Int.le_floor.2 (by push_cast; linarith)
  have hhi : ⌊x * 10 + 1 / 2⌋ ≤ (50 : ℤ) := by
    have : ⌊x * 10 + 1 / 2⌋ < (51 : ℤ) := Int.floor_lt.2 (by push_cast; linarith)
    omega
  unfold fixedTenths
  rw [hfl]
  omega

theorem toFixed1_of_nonneg (x : ℚ) (hx : 0 ≤ x) :
    toFixed1 (some x) =
      toString (fixedTenths x / 10) ++ "." ++ toString (fixedTenths x % 10) := by
  have hnot : ¬ x < 0 := not_lt.2 hx
  simp only [toFixed1, hnot, if_false]

theorem arithmeticMean_bounds (qs : List ℚ) (hne : qs ≠ []) (a b : ℚ)
    (h : ∀ q ∈ qs, a ≤ q ∧ q ≤ b) : a ≤ arithmeticMean qs ∧ arithmeticMean qs ≤ b := by
  have hsum : (qs.length : ℚ) * a ≤ qs.sum ∧ qs.sum ≤ (qs.length : ℚ) * b := by
    clear hne
    induction qs with
    | nil => simp
    | cons q qs ih =>
      have hq := h q (List.mem_cons_self _ _)
      have ih2 := ih (fun x hx => h x (List.mem_cons_of_mem _ hx))
      simp only [List.length_cons, List.sum_cons, Nat.cast_add, Nat.cast_one]
      constructor <;> nlinarith [hq.1, hq.2, ih2.1, ih2.2]
  have hlen : (0 : ℚ) < qs.length := by
    have : qs.length ≠ 0 := by simpa using hne
    exact_mod_cast Nat.pos_of_ne_zero this
  unfold arithmeticMean
  constructor
  · rw [le_div_iff₀ hlen]; linarith [hsum.1]
  · rw [div_le_iff₀ hlen]; linarith [hsum.2]

/-- The scores of rows whose moods do not name an inherited member are rationals from 1 to 5. -/
theorem exists_scores (rs : List Row) (hmood : ∀ r ∈ rs, r.mood ∉ objectPrototypeKeys) :
    ∃ qs : List ℚ, rs.map (fun r => score r.mood) = qs.map some ∧ qs.length = rs.length ∧
      ∀ q ∈ qs, 1 ≤ q ∧ q ≤ 5 := by
  induction rs with
  | nil => exact ⟨[], rfl, rfl, by simp⟩
  | cons r rs ih =>
    obtain ⟨qs, h1, h2, h3⟩ := ih (fun x hx => hmood x (List.mem_cons_of_mem _ hx))
    obtain ⟨q, hq, hcases⟩ := score_of_not_inherited r.mood (hmood r (List.mem_cons_self _ _))
    refine ⟨q :: qs, by simp [hq, h1], by simp [h2], ?_⟩
    intro x hx
    rcases List.mem_cons.1 hx with h | h
    · subst h
      rcases hcases with h | h | h | h | h <;> subst h <;> norm_num
    · exact h3 x h

/-! ## The mean of the stress values -/

theorem foldl_numAdd_none (l : List Num) : l.foldl numAdd none = none := by
  induction l with
  | nil => rfl
  | cons x xs ih => simpa [numAdd] using ih

theorem foldl_numAdd_of_mem_none (l : List Num) (a : Num) (h : none ∈ l) :
    l.foldl numAdd a = none := by
  induction l generalizing a with
  | nil => exact absurd h (List.not_mem_nil _)
  | cons x xs ih =>
    rw [List.foldl_cons]
    rcases List.mem_cons.1 h with h | h
    · subst h
      have : numAdd a none = none := by cases a <;> rfl
      rw [this, foldl_numAdd_none]
    · exact ih _ h

theorem mean_of_mem_none (l : List Num) (h : none ∈ l) : mean l = none := by
  simp [mean, foldl_numAdd_of_mem_none l _ h, numDiv]

theorem exactMean_of_mem_none (l : List Num) (h : none ∈ l) : exactMean l = none := by
  simp [exactMean, foldl_numAdd_of_mem_none l _ h]

theorem sum_map_stress (qs : List ℚ) :
    (qs.map (fun s => 100 - (s / 5) * 100)).sum = 100 * qs.length - 20 * qs.sum := by
  induction qs with
  | nil => simp
  | cons q qs ih =>
    simp only [List.map_cons, List.sum_cons, ih, List.length_cons, Nat.cast_add, Nat.cast_one]
    ring

/-- With an exact quotient the mean of the stress values is the stress value of the mean. -/
theorem exactMean_map_stress (l : List Num) :
    exactMean (l.map stress) = stress (exactMean l) := by
  by_cases hall : ∀ x ∈ l, x ≠ none
  · obtain ⟨qs, rfl⟩ := exists_map_some l hall
    have hmap : (qs.map some).map stress = (qs.map (fun s => 100 - (s / 5) * 100)).map some := by
      simp [stress, Function.comp_def]
    by_cases hq : qs = []
    · subst hq
      simp [exactMean, stress]
    · have hq2 : qs.map (fun s => 100 - (s / 5) * 100) ≠ [] := by simpa using hq
      have hlen : (qs.length : ℚ) ≠ 0 := by
        have : qs.length ≠ 0 := by simpa using hq
        exact_mod_cast this
      rw [hmap, exactMean_map_some _ hq2, exactMean_map_some _ hq]
      simp only [stress, Option.map_some', Option.some.injEq, arithmeticMean, sum_map_stress,
        List.length_map]
      field_simp
      ring
  · have hn : none ∈ l := by
      by_contra hc
      exact hall (fun x hx e => hc (e ▸ hx))
    have hn2 : none ∈ l.map stress := List.mem_map.2 ⟨none, hn, rfl⟩
    rw [exactMean_of_mem_none _ hn2, exactMean_of_mem_none _ hn]
    rfl

/-- The mean of the stress values is the double nearest to `100 - 20 * m`, where `m` is the
exact mean of the scores. -/
theorem mean_map_stress (l : List Num) :
    mean (l.map stress) = (exactMean l).map (fun m => roundDouble (100 - 20 * m)) := by
  rw [mean_eq_exactMean, exactMean_map_stress]
  cases exactMean l with
  | none => rfl
  | some m =>
    simp only [stress, Option.map_some', Option.some.injEq]
    congr 1
    ring

/-- The weekday mood array is the array of the exact weekday means, each rounded to a double. -/
theorem trend_weeklyData (D : JsDate) (rows : List Row) :
    trend (accumulate D rows).weeklyData =
      (exactWeekdayMeans D rows).map (fun m => m.map roundDouble) := by
  unfold exactWeekdayMeans
  rw [accumulate, foldl_forEachBody_weeklyData]
  simp only [Acc.empty]
  rw [trend_foldl_pushProp_eq, List.map_map]
  apply List.map_congr_left
  intro k _
  exact mean_eq_exactMean _

/-- The weekday stress array is the array of the doubles nearest to `100 - 20 * m`, for the
exact weekday means `m` of the scores. -/
theorem trend_stressLevels (D : JsDate) (rows : List Row) :
    trend (accumulate D rows).stressLevels =
      (exactWeekdayMeans D rows).map (fun m => m.map (fun x => roundDouble (100 - 20 * x))) := by
  unfold exactWeekdayMeans
  rw [accumulate, foldl_forEachBody_stressLevels, foldl_forEachBody_weeklyData]
  simp only [Acc.empty]
  rw [trend_foldl_pushProp_eq,
    sortedKeys_foldl_pushProp (fun r : Row => D.getDay r.date) (fun r => stress (score r.mood))
      (fun r => score r.mood) rows rows (fun _ => Iff.rfl),
    List.map_map]
  apply List.map_congr_left
  intro k _
  have : (rows.filter (fun r => D.getDay r.date = k)).map (fun r => stress (score r.mood)) =
      ((rows.filter (fun r => D.getDay r.date = k)).map (fun r => score r.mood)).map stress := by
    simp [Function.comp_def]
  rw [this, mean_map_stress]
  rfl

/-- The value of `moodMapping[mood] || 3`, when it is a number, is one of 1, 2, 3, 4, 5. -/
theorem score_values (mood : String) (s : ℚ) (h : score mood = some s) :
    s = 1 ∨ s = 2 ∨ s = 3 ∨ s = 4 ∨ s = 5 := by
  by_cases hmem : mood ∈ objectPrototypeKeys
  · have hnone : score mood = none := by
      simp only [objectPrototypeKeys, List.mem_cons, List.mem_singleton, List.not_mem_nil,
        or_false] at hmem
      rcases hmem with rfl | rfl | rfl | rfl | rfl | rfl | rfl | rfl | rfl | rfl | rfl | rfl <;>
        decide!
    rw [hnone] at h
    cases h
  · obtain ⟨q, hq, hcases⟩ := score_of_not_inherited mood hmem
    rw [hq] at h
    cases h
    exact hcases

/-- An exact mean of scores that is a number lies between 1 and 5. -/
theorem exactMean_scores_bounds (rs : List Row) (q : ℚ)
    (h : exactMean (rs.map (fun r => score r.mood)) = some q) : 1 ≤ q ∧ q ≤ 5 := by
  have hnone : none ∉ rs.map (fun r => score r.mood) := by
    intro hn
    rw [exactMean_of_mem_none _ hn] at h
    cases h
  obtain ⟨qs, hqs⟩ := exists_map_some _ (fun x hx e => hnone (e ▸ hx))
  have hq : qs ≠ [] := by
    intro e
    rw [hqs, e] at h
    simp [exactMean] at h
  rw [hqs, exactMean_map_some qs hq] at h
  cases h
  apply arithmeticMean_bounds qs hq 1 5
  intro x hx
  have hmem : some x ∈ rs.map (fun r => score r.mood) := by
    rw [hqs]
    exact List.mem_map.2 ⟨x, hx, rfl⟩
  obtain ⟨r, _, hr⟩ := List.mem_map.1 hmem
  rcases score_values r.mood x hr with e | e | e | e | e <;> subst e <;> norm_num

/-- An exact weekday mean that is a number lies between 1 and 5. -/
theorem exactWeekdayMeans_bounds (D : JsDate) (rows : List Row) (m : Num)
    (hm : m ∈ exactWeekdayMeans D rows) (q : ℚ) (h : m = some q) : 1 ≤ q ∧ q ≤ 5 := by
  unfold exactWeekdayMeans at hm
  obtain ⟨k, _, rfl⟩ := List.mem_map.1 hm
  exact exactMean_scores_bounds _ q h

/-- On every score the three double operations of `100 - ((score / 5) * 100)` return the exact
value: the stress values 80, 60, 40, 20, 0 carry no rounding error. -/
theorem stress_eq_roundDouble (mood : String) (s : ℚ) (h : score mood = some s) :
    stress (score mood) =
      some (roundDouble (100 - roundDouble (roundDouble (s / 5) * 100))) := by
  rw [h]
  rcases score_values mood s h with e | e | e | e | e <;> subst e <;> decide!

/-! ## No empty bucket -/

theorem bucket_ne_nil {ρ : Type} (key : ρ → Option ℕ) (val : ρ → Num) (rows : List ρ)
    (k : Option ℕ) (hk : k ∈ keys (rows.foldl (fun o r => pushProp o (key r) (val r)) [])) :
    ∃ arr, getProp (rows.foldl (fun o r => pushProp o (key r) (val r)) []) k = some arr ∧
      arr = (rows.filter (fun r => key r = k)).map val ∧ arr.length ≠ 0 := by
  obtain ⟨r, hr, hrk⟩ : ∃ r ∈ rows, key r = k := by
    simpa [keys] using (mem_keys_foldl_pushProp key val rows [] k).1 hk
  have hfilter : (rows.filter (fun r => key r = k)).map val ≠ [] := by
    intro h
    have hm : r ∈ rows.filter (fun r => key r = k) := by simp [hr, hrk]
    simp only [List.map_eq_nil_iff] at h
    rw [h] at hm
    exact List.not_mem_nil _ hm
  have hg := getProp_foldl_pushProp key val rows [] k
  simp only [getProp, Option.getD_none, List.nil_append] at hg
  cases hgp : getProp (rows.foldl (fun o r => pushProp o (key r) (val r)) []) k with
  | none =>
    rw [hgp] at hg
    exact absurd hg.symm hfilter
  | some arr =>
    rw [hgp] at hg
    simp only [Option.getD_some] at hg
    refine ⟨arr, rfl, hg, ?_⟩
    rw [hg]
    simpa using hfilter

theorem dailyEntry_count (D : JsDate) (rows : List Row) (d : String)
    (hd : d ∈ keys (accumulate D rows).dailyData) :
    ∃ e, getProp (accumulate D rows).dailyData d = some e ∧
      e.count = (rowsOn d rows).length ∧ e.count ≠ 0 := by
  obtain ⟨hp, r0, hr0, hr0d⟩ := (mem_keys_dailyData D rows d).1 hd
  rw [accumulate, foldl_forEachBody_dailyData, getProp_foldl_addDaily rows _ d hp]
  unfold rowsOn
  cases hf : rows.filter (fun r => r.date = d) with
  | nil =>
    have hm : r0 ∈ rows.filter (fun r => r.date = d) := by simp [hr0, hr0d]
    rw [hf] at hm
    exact absurd hm (List.not_mem_nil _)
  | cons r rs =>
    simp only [Acc.empty, getProp, entryAfter_none_cons]
    exact ⟨_, rfl, by simp, by simp⟩

/-! ## Buckets by the index the date built-ins return -/

/-- For ISO dates and built-ins that return indices in range, `weeklyMoodTrend` lists, in
ascending order of the index 0 to 6 that `getDay` returns, one mean for each index that occurs
and nothing for the others, so at most 7 values. -/
theorem weeklyMoodTrend_by_weekday (D : JsDate) (hD : D.InRange) (rows : List Row)
    (hne : rows ≠ []) (hdate : ∀ r ∈ rows, isIsoDate r.date = true) :
    ∃ a, aggregate D rows = some a ∧
      a.weeklyMoodTrend =
        ((List.range 7).filter (fun d => decide (∃ r ∈ rows, D.getDay r.date = some d))).map
          (fun d =>
            mean ((rows.filter (fun r => D.getDay r.date = some d)).map
              (fun r => score r.mood))) ∧
      a.weeklyMoodTrend.length ≤ 7 := by
  obtain ⟨a, ha, _, hweek, _⟩ := aggregate_of_isIsoDate D rows hne hdate
  have heq : a.weeklyMoodTrend =
      ((List.range 7).filter (fun d => decide (∃ r ∈ rows, D.getDay r.date = some d))).map
        (fun d =>
          mean ((rows.filter (fun r => D.getDay r.date = some d)).map
            (fun r => score r.mood))) := by
    rw [hweek, accumulate, foldl_forEachBody_weeklyData]
    exact trend_foldl_pushProp (fun r : Row => D.getDay r.date) (fun r => score r.mood) rows 7
      (fun r hr => (hD r.date (hdate r hr)).1)
  refine ⟨a, ha, heq, ?_⟩
  rw [heq, List.length_map]
  exact (List.length_filter_le _ _).trans (by simp)

/-- For ISO dates and built-ins that return indices in range, `monthlyMoodTrend` lists, in
ascending order of the index 0 to 11 that `getMonth` returns, one mean for each index that
occurs, whatever the year, and nothing for the others, so at most 12 values. -/
theorem monthlyMoodTrend_by_month (D : JsDate) (hD : D.InRange) (rows : List Row)
    (hne : rows ≠ []) (hdate : ∀ r ∈ rows, isIsoDate r.date = true) :
    ∃ a, aggregate D rows = some a ∧
      a.monthlyMoodTrend =
        ((List.range 12).filter (fun m => decide (∃ r ∈ rows, D.getMonth r.date = some m))).map
          (fun m =>
            mean ((rows.filter (fun r => D.getMonth r.date = some m)).map
              (fun r => score r.mood))) ∧
      a.monthlyMoodTrend.length ≤ 12 := by
  obtain ⟨a, ha, _, _, hmonth, _⟩ := aggregate_of_isIsoDate D rows hne hdate
  have heq : a.monthlyMoodTrend =
      ((List.range 12).filter (fun m => decide (∃ r ∈ rows, D.getMonth r.date = some m))).map
        (fun m =>
          mean ((rows.filter (fun r => D.getMonth r.date = some m)).map
            (fun r => score r.mood))) := by
    rw [hmonth, accumulate, foldl_forEachBody_monthlyData]
    exact trend_foldl_pushProp (fun r : Row => D.getMonth r.date) (fun r => score r.mood) rows 12
      (fun r hr => (hD r.date (hdate r hr)).2)
  refine ⟨a, ha, heq, ?_⟩
  rw [heq, List.length_map]
  exact (List.length_filter_le _ _).trans (by simp)

/-! ## Totality on ISO dates -/

/-- For every non-empty list of mood events with ISO dates the aggregation is total: every
weekday, month and weekday-stress bucket that is reduced exists and has a non-zero length,
every entry of `dailyData` has a non-zero `count`, the list of all scores is non-empty, so no
mean divides by zero; and `dailyAnalytics` is non-empty, so the reduce without initial value
does not throw and the aggregation returns a result. -/
theorem aggregation_total (D : JsDate) (rows : List Row) (hne : rows ≠ [])
    (hdate : ∀ r ∈ rows, isIsoDate r.date = true) :
    (∀ k ∈ keys (accumulate D rows).weeklyData,
        ∃ arr, getProp (accumulate D rows).weeklyData k = some arr ∧ arr.length ≠ 0) ∧
      (∀ k ∈ keys (accumulate D rows).monthlyData,
        ∃ arr, getProp (accumulate D rows).monthlyData k = some arr ∧ arr.length ≠ 0) ∧
      (∀ k ∈ keys (accumulate D rows).stressLevels,
        ∃ arr, getProp (accumulate D rows).stressLevels k = some arr ∧ arr.length ≠ 0) ∧
      (∀ d ∈ keys (accumulate D rows).dailyData,
        ∃ e, getProp (accumulate D rows).dailyData d = some e ∧ e.count ≠ 0) ∧
      (accumulate D rows).moodScores.length ≠ 0 ∧
      dailyAnalytics (accumulate D rows).dailyData ≠ [] ∧
      (highestStressDayObj (dailyAnalytics (accumulate D rows).dailyData)).isSome = true ∧
      (aggregate D rows).isSome = true := by
  have hplain : ∀ r ∈ rows, r.date ∉ objectPrototypeKeys :=
    fun r hr => not_inherited_of_isIsoDate _ (hdate r hr)
  have hdaily := dailyAnalytics_ne_nil D rows hne hplain
  refine ⟨?_, ?_, ?_, ?_, ?_, hdaily, ?_, ?_⟩
  · intro k hk
    rw [accumulate, foldl_forEachBody_weeklyData] at hk ⊢
    obtain ⟨arr, h1, _, h3⟩ := bucket_ne_nil _ _ rows k hk
    exact ⟨arr, h1, h3⟩
  · intro k hk
    rw [accumulate, foldl_forEachBody_monthlyData] at hk ⊢
    obtain ⟨arr, h1, _, h3⟩ := bucket_ne_nil _ _ rows k hk
    exact ⟨arr, h1, h3⟩
  · intro k hk
    rw [accumulate, foldl_forEachBody_stressLevels] at hk ⊢
    obtain ⟨arr, h1, _, h3⟩ := bucket_ne_nil _ _ rows k hk
    exact ⟨arr, h1, h3⟩
  · intro d hd
    obtain ⟨e, h1, _, h3⟩ := dailyEntry_count D rows d hd
    exact ⟨e, h1, h3⟩
  · rw [moodScores_accumulate, List.length_map]
    simpa using hne
  · cases hd : dailyAnalytics (accumulate D rows).dailyData with
    | nil => exact absurd hd hdaily
    | cons x xs => rfl
  · obtain ⟨a, ha, _⟩ := aggregate_of_isIsoDate D rows hne hdate
    rw [ha]
    rfl

/-! ## Claims -/

/-- C1, as stated, fails: for two days that share the maximal stress level 20 the route
returns the later day, `2024-01-02`, not the earliest one. -/
theorem highestStressDay_tie_returns_later_day :
    (aggregate utc tieRows).map (fun a => (a.dailyAnalytics, a.insights.highestStressDay)) =
        some ([⟨"2024-01-01", some 4, some 20⟩, ⟨"2024-01-02", some 4, some 20⟩], "2024-01-02") ∧
      "2024-01-01" < "2024-01-02" := by
  decide!

/-- C1, amended: for every non-empty list of mood events with ISO dates and moods that do not
name a member of `Object.prototype`, `highestStressDay` is the date of an element of
`dailyAnalytics` of maximal `stressLevel`, and every element of maximal `stressLevel` has a
date that is not later: among the dates that share the maximum, the latest one is returned. -/
theorem highestStressDay_latest_of_ties (D : JsDate) (rows : List Row) (hne : rows ≠ [])
    (hdate : ∀ r ∈ rows, isIsoDate r.date = true)
    (hmood : ∀ r ∈ rows, r.mood ∉ objectPrototypeKeys) :
    ∃ a, aggregate D rows = some a ∧
      (∃ m ∈ a.dailyAnalytics, m.date = a.insights.highestStressDay ∧
        ∀ e ∈ a.dailyAnalytics, numGe m.stressLevel e.stressLevel) ∧
      ∀ e ∈ a.dailyAnalytics,
        (∀ e2 ∈ a.dailyAnalytics, numGe e.stressLevel e2.stressLevel) →
          e.date ≤ a.insights.highestStressDay := by
  have hplain : ∀ r ∈ rows, r.date ∉ objectPrototypeKeys :=
    fun r hr => not_inherited_of_isIsoDate _ (hdate r hr)
  cases hd : dailyAnalytics (accumulate D rows).dailyData with
  | nil => exact absurd hd (dailyAnalytics_ne_nil D rows hne hplain)
  | cons x xs =>
    have hnum : ∀ e ∈ x :: xs, e.stressLevel ≠ none := by
      intro e he
      rw [← hd] at he
      exact stressLevel_ne_none D rows hmood e he
    obtain ⟨l1, l2, hsplit, h1, h2⟩ := foldl_pickHigher_spec x xs hnum
    have hsorted := sorted_dates_dailyAnalytics D rows
    rw [hd, hsplit] at hsorted
    have hpw : (l1 ++ xs.foldl pickHigher x :: l2).Pairwise (fun a b => a.date < b.date) :=
      List.pairwise_map.1 hsorted
    have hmax : ∀ e ∈ x :: xs, numGe (xs.foldl pickHigher x).stressLevel e.stressLevel := by
      intro e he
      rw [hsplit] at he
      rcases List.mem_append.1 he with h | h
      · exact h1 e h
      · rcases List.mem_cons.1 h with h | h
        · rw [h]; exact numGe_refl (hnum _ (by rw [hsplit]; simp))
        · exact numGe_of_numGt (h2 e h)
    refine ⟨_, aggregate_of_cons D rows x xs hd, ⟨xs.foldl pickHigher x, ?_, rfl, hmax⟩, ?_⟩
    · show xs.foldl pickHigher x ∈ x :: xs
      rw [hsplit]; simp
    · intro e he hall
      change e ∈ x :: xs at he
      change e.date ≤ (xs.foldl pickHigher x).date
      have hem : numGe e.stressLevel (xs.foldl pickHigher x).stressLevel :=
        hall _ (by show xs.foldl pickHigher x ∈ x :: xs; rw [hsplit]; simp)
      rw [hsplit] at he
      rcases List.mem_append.1 he with h | h
      · exact le_of_lt ((List.pairwise_append.1 hpw).2.2 e h _ (List.mem_cons_self _ _))
      · rcases List.mem_cons.1 h with h | h
        · rw [h]
        · exact absurd hem (not_numGe_of_numGt (h2 e h))

/-- C1, amended, at the two tied days of `tieRows`. -/
theorem highestStressDay_latest_of_ties_witness :
    (tieRows ≠ [] ∧ (∀ r ∈ tieRows, isIsoDate r.date = true) ∧
        (∀ r ∈ tieRows, r.mood ∉ objectPrototypeKeys)) ∧
      ∃ a, aggregate utc tieRows = some a ∧
        (∃ m ∈ a.dailyAnalytics, m.date = a.insights.highestStressDay ∧
          ∀ e ∈ a.dailyAnalytics, numGe m.stressLevel e.stressLevel) ∧
        ∀ e ∈ a.dailyAnalytics,
          (∀ e2 ∈ a.dailyAnalytics, numGe e.stressLevel e2.stressLevel) →
            e.date ≤ a.insights.highestStressDay :=
  ⟨⟨by decide, by decide, by decide⟩,
    highestStressDay_latest_of_ties utc tieRows (by decide) (by decide) (by decide)⟩

/-- C2, on the code: a mood that names a member of `Object.prototype` makes the stress level
of its day `NaN`; both `80 > NaN` and `NaN > 20` are false, so the fold moves on twice and
returns the day `2024-01-03` of stress level 20 although the day `2024-01-01` has stress
level 80. The dates are ISO dates. -/
theorem highestStressDay_not_max_after_nan :
    (∀ r ∈ inheritedMoodRows, isIsoDate r.date = true) ∧
      score "toString" = none ∧
      (aggregate utc inheritedMoodRows).map
          (fun a => (a.dailyAnalytics, a.insights.highestStressDay)) =
        some ([⟨"2024-01-01", some 1, some 80⟩, ⟨"2024-01-02", none, none⟩,
          ⟨"2024-01-03", some 4, some 20⟩], "2024-01-03") := by
  decide!

/-! ### Scores and stress values -/

/-- C3, as stated, fails: the mood `Unknown` is none of the five labels and gets score 3, but
its stress value is 40, not 50, and the element of `dailyAnalytics` of a single such event has
`stressLevel` 40. -/
theorem unknown_mood_stress_is_not_50 :
    "Unknown" ∉ moodMapping.map Prod.fst ∧ score "Unknown" = some 3 ∧
      stress (score "Unknown") = some 40 ∧ stress (score "Unknown") ≠ some 50 ∧
      (aggregate utc [⟨"2024-01-01", "Unknown"⟩]).map
          (fun a => (a.dailyAnalytics, a.insights.avgMood)) =
        some ([⟨"2024-01-01", some 3, some 40⟩], "3.0") := by
  decide!

/-- C3, amended: for every mood string that is none of the five labels and does not name a
member inherited from `Object.prototype` (the empty string included), the score is 3 and the
stress value is 40; a single event with such a mood, `Unknown` for one, yields
`insights.avgMood = "3.0"` and one element of `dailyAnalytics` with `avgMood` 3 and
`stressLevel` 40. -/
theorem unknown_mood_defaults (mood : String)
    (hlabel : mood ∉ ["Overwhelmed", "Sad", "Neutral", "Happy", "Ecstatic"])
    (hplain : mood ∉ objectPrototypeKeys) :
    score mood = some 3 ∧ stress (score mood) = some 40 ∧
      ∀ (D : JsDate) (date : String), isIsoDate date = true →
        ∃ a, aggregate D [⟨date, mood⟩] = some a ∧
          a.dailyAnalytics = [⟨date, some 3, some 40⟩] ∧ a.insights.avgMood = "3.0" := by
  have hs : score mood = some 3 := by
    simp only [List.mem_cons, List.mem_singleton, List.not_mem_nil, or_false, not_or] at hlabel
    obtain ⟨h1, h2, h3, h4, h5⟩ := hlabel
    have e1 : (mood == "Overwhelmed") = false := by simpa using h1
    have e2 : (mood == "Sad") = false := by simpa using h2
    have e3 : (mood == "Neutral") = false := by simpa using h3
    have e4 : (mood == "Happy") = false := by simpa using h4
    have e5 : (mood == "Ecstatic") = false := by simpa using h5
    simp [score, moodMapping, List.lookup, e1, e2, e3, e4, e5, hplain]
  have hst : stress (score mood) = some 40 := by
    rw [hs]
    simp only [stress, Option.map_some']
    norm_num
  refine ⟨hs, hst, ?_⟩
  intro D date hdate
  refine ⟨_, aggregate_singleton D date mood (not_inherited_of_isIsoDate date hdate), ?_, ?_⟩
  · simp only [hst]
    simp only [hs, numDiv, one_ne_zero, if_false, Nat.cast_one, div_one, roundDouble_three,
      roundDouble_forty, plusToFixed1_three, plusToFixed1_forty]
  · simp only [hs, mean, List.foldl_cons, List.foldl_nil, numAdd_zero_left, List.length_singleton,
      numDiv, one_ne_zero, if_false, Nat.cast_one, div_one, roundDouble_three, toFixed1_three]

/-- C3, amended, at the mood `Unknown` and at the empty string. -/
theorem unknown_mood_defaults_witness :
    ("Unknown" ∉ ["Overwhelmed", "Sad", "Neutral", "Happy", "Ecstatic"] ∧
        "Unknown" ∉ objectPrototypeKeys) ∧
      (score "Unknown" = some 3 ∧ stress (score "Unknown") = some 40 ∧
        ∀ (D : JsDate) (date : String), isIsoDate date = true →
          ∃ a, aggregate D [⟨date, "Unknown"⟩] = some a ∧
            a.dailyAnalytics = [⟨date, some 3, some 40⟩] ∧ a.insights.avgMood = "3.0") ∧
      score "" = some 3 :=
  ⟨⟨by decide, by decide⟩, unknown_mood_defaults "Unknown" (by decide) (by decide),
    (unknown_mood_defaults "" (by decide) (by decide)).1⟩

/-- C4: the five labels score 1 to 5 as in the table; the stress value of an event is
`100 - (score / 5) * 100`, that is `100 - 20 * score`; the five labels give stress 80, 60, 40,
20, 0; the stress value is strictly decreasing in the score; and the stress value of every
event whose mood does not name a member of `Object.prototype` lies in `[0, 80]`, its score in
`[1, 5]`. -/
theorem score_table_and_stress :
    (score "Overwhelmed" = some 1 ∧ score "Sad" = some 2 ∧ score "Neutral" = some 3 ∧
        score "Happy" = some 4 ∧ score "Ecstatic" = some 5) ∧
      (∀ mood : String, ∀ s : ℚ, score mood = some s →
        stress (score mood) = some (100 - (s / 5) * 100) ∧
          stress (score mood) = some (100 - 20 * s)) ∧
      (stress (score "Overwhelmed") = some 80 ∧ stress (score "Sad") = some 60 ∧
        stress (score "Neutral") = some 40 ∧ stress (score "Happy") = some 20 ∧
        stress (score "Ecstatic") = some 0) ∧
      (∀ s1 s2 : ℚ, s1 < s2 →
        ∃ t1 t2 : ℚ, stress (some s1) = some t1 ∧ stress (some s2) = some t2 ∧ t2 < t1) ∧
      (∀ mood : String, mood ∉ objectPrototypeKeys →
        ∃ s t : ℚ, score mood = some s ∧ stress (score mood) = some t ∧
          1 ≤ s ∧ s ≤ 5 ∧ 0 ≤ t ∧ t ≤ 80) := by
  refine ⟨by decide!, ?_, by decide!, ?_, ?_⟩
  · intro mood s hs
    rw [hs]
    simp only [stress, Option.map_some', Option.some.injEq, true_and]
    ring
  · intro s1 s2 h
    refine ⟨100 - (s1 / 5) * 100, 100 - (s2 / 5) * 100, rfl, rfl, ?_⟩
    linarith
  · intro mood hmood
    obtain ⟨s, hs, hcases⟩ := score_of_not_inherited mood hmood
    refine ⟨s, 100 - (s / 5) * 100, hs, by rw [hs]; rfl, ?_⟩
    rcases hcases with h | h | h | h | h <;> subst h <;> norm_num

/-- C4 at the moods `Happy` (score 4, stress 20) and `Sad` (score 2, stress 60). -/
theorem score_table_and_stress_witness :
    stress (score "Happy") = some (100 - 20 * 4) ∧
      (∃ t1 t2 : ℚ, stress (some 2) = some t1 ∧ stress (some 4) = some t2 ∧ t2 < t1) ∧
      ∃ s t : ℚ, score "Happy" = some s ∧ stress (score "Happy") = some t ∧
        1 ≤ s ∧ s ≤ 5 ∧ 0 ≤ t ∧ t ≤ 80 :=
  ⟨(score_table_and_stress.2.1 "Happy" 4 (by decide!)).2,
    score_table_and_stress.2.2.2.1 2 4 (by norm_num),
    score_table_and_stress.2.2.2.2 "Happy" (by decide)⟩

/-! ### The route -/

/-- C5: when the identifier is present and the read succeeds with zero rows, the route reads
the store once and answers with status 200 and the body `{hasData: false}`, whose only key is
`hasData`; when the read succeeds with at least one row, every response sent has status 200
and `hasData = true`, and one is sent whenever the dates are ISO dates. -/
theorem empty_store_gives_noData (D : JsDate) (db : String → Except String (List Row))
    (e : String) (he : e ≠ "") :
    (db e = Except.ok [] →
        moodAnalyticsRoute D db (some e) = ⟨[e], some ⟨200, Body.noData⟩⟩ ∧
          Body.noData.keys = ["hasData"] ∧ Body.noData.hasData = some false) ∧
      ∀ rows, db e = Except.ok rows → rows ≠ [] →
        (∀ resp, (moodAnalyticsRoute D db (some e)).response = some resp →
          resp.status = 200 ∧ resp.body.hasData = some true) ∧
        ((∀ r ∈ rows, isIsoDate r.date = true) →
          ∃ a, moodAnalyticsRoute D db (some e) = ⟨[e], some ⟨200, Body.data a⟩⟩) := by
  constructor
  · intro h
    simp [moodAnalyticsRoute, he, h, Body.keys, Body.hasData]
  · intro rows h hne
    have hlen : rows.length ≠ 0 := by simpa using hne
    constructor
    · intro resp hresp
      simp only [moodAnalyticsRoute, he, h, hlen, if_false, Option.map_eq_some'] at hresp
      obtain ⟨a, _, rfl⟩ := hresp
      exact ⟨rfl, rfl⟩
    · intro hdate
      have hplain : ∀ r ∈ rows, r.date ∉ objectPrototypeKeys :=
        fun r hr => not_inherited_of_isIsoDate _ (hdate r hr)
      cases hd : dailyAnalytics (accumulate D rows).dailyData with
      | nil => exact absurd hd (dailyAnalytics_ne_nil D rows hne hplain)
      | cons x xs =>
        have hagg := aggregate_of_cons D rows x xs hd
        obtain ⟨a, ha⟩ : ∃ a, aggregate D rows = some a := ⟨_, hagg⟩
        exact ⟨a, by simp only [moodAnalyticsRoute, he, h, hlen, if_false, ha,
          Option.map_some']⟩

/-- C5 at a store without rows and at the store of the worked example. -/
theorem empty_store_gives_noData_witness :
    "ann@example.org" ≠ "" ∧
      moodAnalyticsRoute utc emptyStore (some "ann@example.org") =
        ⟨["ann@example.org"], some ⟨200, Body.noData⟩⟩ ∧
      ∃ a, moodAnalyticsRoute utc exampleStore (some "ann@example.org") =
        ⟨["ann@example.org"], some ⟨200, Body.data a⟩⟩ :=
  ⟨by decide,
    ((empty_store_gives_noData utc emptyStore "ann@example.org" (by decide)).1 rfl).1,
    ((empty_store_gives_noData utc exampleStore "ann@example.org" (by decide)).2
      exampleRows rfl (by decide)).2 (by decide)⟩

/-- C6: a missing identifier (absent or empty) is answered with status 400 without reading the
store; a failed read for a present identifier is answered with status 500; in both cases the
body is `{error: ...}`: its only key is `error`, it has no `hasData` key and carries no
aggregation output. -/
theorem errors_are_not_empty_data (D : JsDate) (db : String → Except String (List Row)) :
    (moodAnalyticsRoute D db none = ⟨[], some ⟨400, Body.error "Email is required"⟩⟩ ∧
        moodAnalyticsRoute D db (some "") = ⟨[], some ⟨400, Body.error "Email is required"⟩⟩) ∧
      (∀ e err, e ≠ "" → db e = Except.error err →
        moodAnalyticsRoute D db (some e) = ⟨[e], some ⟨500, Body.error "Database error"⟩⟩) ∧
      ∀ msg, (Body.error msg).keys = ["error"] ∧ "hasData" ∉ (Body.error msg).keys ∧
        (Body.error msg).hasData = none ∧ ∀ a, Body.error msg ≠ Body.data a := by
  refine ⟨⟨rfl, rfl⟩, ?_, ?_⟩
  · intro e err he h
    simp [moodAnalyticsRoute, he, h]
  · intro msg
    refine ⟨rfl, by simp [Body.keys], rfl, ?_⟩
    intro a h
    cases h

/-- C6 at a store whose read fails. -/
theorem errors_are_not_empty_data_witness :
    moodAnalyticsRoute utc failingStore (some "ann@example.org") =
      ⟨["ann@example.org"], some ⟨500, Body.error "Database error"⟩⟩ :=
  (errors_are_not_empty_data utc failingStore).2.1 "ann@example.org" "SQLITE_BUSY"
    (by decide) rfl

/-! ### The per-day array -/

/-- C7: for every non-empty list of mood events (ISO dates), the dates of `dailyAnalytics` are
in strictly ascending string order and are exactly the dates that occur in the input, each of
them once. -/
theorem dailyAnalytics_dates_sorted_exact (D : JsDate) (rows : List Row) (hne : rows ≠ [])
    (hdate : ∀ r ∈ rows, isIsoDate r.date = true) :
    ∃ a, aggregate D rows = some a ∧
      (a.dailyAnalytics.map DayStat.date).Sorted (fun x y => x < y) ∧
      (∀ d, d ∈ a.dailyAnalytics.map DayStat.date ↔ d ∈ rows.map Row.date) ∧
      ∀ d ∈ rows.map Row.date, (a.dailyAnalytics.map DayStat.date).count d = 1 := by
  obtain ⟨a, ha, hdaily, _⟩ := aggregate_of_isIsoDate D rows hne hdate
  have hmem : ∀ d, d ∈ a.dailyAnalytics.map DayStat.date ↔ d ∈ rows.map Row.date := by
    intro d
    rw [hdaily, dates_dailyAnalytics, (List.perm_insertionSort _ _).mem_iff,
      mem_keys_dailyData, List.mem_map]
    constructor
    · rintro ⟨_, r, hr, h⟩
      exact ⟨r, hr, h⟩
    · rintro ⟨r, hr, h⟩
      exact ⟨h ▸ not_inherited_of_isIsoDate _ (hdate r hr), r, hr, h⟩
  have hsorted : (a.dailyAnalytics.map DayStat.date).Sorted (fun x y => x < y) := by
    rw [hdaily]
    exact sorted_dates_dailyAnalytics D rows
  have hnodup : (a.dailyAnalytics.map DayStat.date).Nodup := by
    rw [hdaily, dates_dailyAnalytics]
    exact (List.perm_insertionSort _ _).nodup_iff.2 (nodup_keys_dailyData D rows)
  exact ⟨a, ha, hsorted, hmem, fun d hd => List.count_eq_one_of_mem hnodup ((hmem d).2 hd)⟩

/-- C7 at the worked example of the specification. -/
theorem dailyAnalytics_dates_sorted_exact_witness :
    (exampleRows ≠ [] ∧ ∀ r ∈ exampleRows, isIsoDate r.date = true) ∧
      ∃ a, aggregate utc exampleRows = some a ∧
        (a.dailyAnalytics.map DayStat.date).Sorted (fun x y => x < y) ∧
        (∀ d, d ∈ a.dailyAnalytics.map DayStat.date ↔ d ∈ exampleRows.map Row.date) ∧
        ∀ d ∈ exampleRows.map Row.date, (a.dailyAnalytics.map DayStat.date).count d = 1 :=
  ⟨⟨by decide, by decide⟩,
    dailyAnalytics_dates_sorted_exact utc exampleRows (by decide) (by decide)⟩

/-- C8, as stated, fails: the 20 events of `halfwayRows` have the mean score `23 / 20 = 1.15`,
which rounded to one decimal place is `1.2`, and the route returns `avgMood` `1.1`, because the
double nearest to `23 / 20` lies below it; at the mean `5 / 4 = 1.25` of `quarterRows`, which
is a double, the route returns `1.3`. -/
theorem dailyAnalytics_halfway_mean_not_rounded_up :
    exactMean (halfwayRows.map (fun r => score r.mood)) = some (23 / 20) ∧
      plusToFixed1 (some (23 / 20)) = some (12 / 10) ∧
      (aggregate utc halfwayRows).map (fun a => a.dailyAnalytics) =
        some [⟨"2024-01-01", some (11 / 10), some 77⟩] ∧
      roundDouble (23 / 20) < 23 / 20 ∧
      exactMean (quarterRows.map (fun r => score r.mood)) = some (5 / 4) ∧
      (aggregate utc quarterRows).map (fun a => a.dailyAnalytics) =
        some [⟨"2024-01-01", some (13 / 10), some 75⟩] := by
  decide!

/-- C8, amended: for every non-empty list of mood events (ISO dates), every date of the input
has an element in `dailyAnalytics`, and the element of a date has as `avgMood` the value of
`toFixed(1)` on the quotient, computed as a double, of the sum of the scores of the events of
that date by their number, and as `stressLevel` the same for their stress values. Here the
quotient of numbers is the double nearest to their arithmetic mean, at distance at most
`2 ^ (-46)` of it for a mean up to 128, and `toFixed(1)` returns the multiple of one tenth
nearest to that double, the larger one on a tie. For the three events of the worked example
the array is `[(2024-01-01, 3.0, 40.0), (2024-01-08, 5.0, 0.0)]`. -/
theorem dailyAnalytics_entries_are_rounded_means (D : JsDate) (rows : List Row)
    (hne : rows ≠ []) (hdate : ∀ r ∈ rows, isIsoDate r.date = true) :
    (∃ a, aggregate D rows = some a ∧
      (∀ d ∈ rows.map Row.date, ∃ e ∈ a.dailyAnalytics, e.date = d) ∧
      ∀ e ∈ a.dailyAnalytics,
        e.avgMood = plusToFixed1 (mean ((rowsOn e.date rows).map (fun r => score r.mood))) ∧
        e.stressLevel =
          plusToFixed1 (mean ((rowsOn e.date rows).map (fun r => stress (score r.mood))))) ∧
      (∀ qs : List ℚ, qs ≠ [] → mean (qs.map some) = some (roundDouble (arithmeticMean qs))) ∧
      (∀ x : ℚ, 0 ≤ x → x ≤ 128 → |roundDouble x - x| ≤ 1 / 2 ^ 46) ∧
      (∀ x : ℚ, 0 ≤ x →
        ∃ n : ℕ, plusToFixed1 (some x) = some ((n : ℚ) / 10) ∧ |(n : ℚ) / 10 - x| ≤ 1 / 20) ∧
      (aggregate utc exampleRows).map (fun a => a.dailyAnalytics) =
        some [⟨"2024-01-01", some 3, some 40⟩, ⟨"2024-01-08", some 5, some 0⟩] := by
  refine ⟨?_, mean_map_some, ?_, plusToFixed1_rounds, by decide!⟩
  swap
  · intro x h0 h128
    have h := roundDouble_close x 7 (by norm_num) h0 (by norm_num; exact h128)
    norm_num at h ⊢
    exact h
  obtain ⟨a, ha, hdaily, _⟩ := aggregate_of_isIsoDate D rows hne hdate
  refine ⟨a, ha, ?_, ?_⟩
  · intro d hd
    obtain ⟨r, hr, rfl⟩ := List.mem_map.1 hd
    have hk : r.date ∈ keys (accumulate D rows).dailyData :=
      (mem_keys_dailyData D rows r.date).2
        ⟨not_inherited_of_isIsoDate _ (hdate r hr), r, hr, rfl⟩
    refine ⟨dayStat r.date ((getProp (accumulate D rows).dailyData r.date).getD ⟨none, none, 0⟩),
      ?_, rfl⟩
    rw [hdaily, mem_dailyAnalytics]
    exact ⟨hk, rfl⟩
  · intro e he
    rw [hdaily] at he
    obtain ⟨hk, heq⟩ := (mem_dailyAnalytics _ e).1 he
    rw [dayStat_dailyData D rows e.date hk] at heq
    constructor
    · conv_lhs => rw [heq]
    · conv_lhs => rw [heq]

/-- C8, amended, at the twenty events of `halfwayRows`. -/
theorem dailyAnalytics_entries_are_rounded_means_witness :
    (halfwayRows ≠ [] ∧ ∀ r ∈ halfwayRows, isIsoDate r.date = true) ∧
      ∃ a, aggregate utc halfwayRows = some a ∧
        (∀ d ∈ halfwayRows.map Row.date, ∃ e ∈ a.dailyAnalytics, e.date = d) ∧
        ∀ e ∈ a.dailyAnalytics,
          e.avgMood =
            plusToFixed1 (mean ((rowsOn e.date halfwayRows).map (fun r => score r.mood))) ∧
          e.stressLevel =
            plusToFixed1
              (mean ((rowsOn e.date halfwayRows).map (fun r => stress (score r.mood)))) :=
  ⟨⟨by decide, by decide⟩,
    (dailyAnalytics_entries_are_rounded_means utc halfwayRows (by decide) (by decide)).1⟩

/-! ### The weekday and month trends -/

/-- C9, on the code: on a server eight hours west of UTC the date string is parsed as midnight
UTC and `getDay` reads the local day, the day before. The `Happy` event of Sunday 2024-01-07
is filed under index 6 and the `Sad` event of Monday 2024-01-01 under index 0, so
`weeklyMoodTrend` is `[2, 4]`: the value at the Sunday position is the mean of the Monday
event. On a UTC server the same rows give `[4, 2]`. -/
theorem weeklyMoodTrend_shifted_west_of_utc :
    (∀ r ∈ sundayMondayRows, isIsoDate r.date = true) ∧
      utc.getDay "2024-01-07" = some 0 ∧ utc.getDay "2024-01-01" = some 1 ∧
      (fixedOffset (-480)).getDay "2024-01-07" = some 6 ∧
      (fixedOffset (-480)).getDay "2024-01-01" = some 0 ∧
      (aggregate (fixedOffset (-480)) sundayMondayRows).map (fun a => a.weeklyMoodTrend) =
        some [some 2, some 4] ∧
      (aggregate utc sundayMondayRows).map (fun a => a.weeklyMoodTrend) =
        some [some 4, some 2] := by
  decide!

/-- C10, on the code: on a server eight hours west of UTC the two events of 2024-01-01 are
filed under month index 11 (December) and the event of 2024-01-08 under index 0, so the three
January events of the worked example give two values, `[5, 3]`, in `monthlyMoodTrend`. On a
UTC server they give one value. -/
theorem monthlyMoodTrend_shifted_west_of_utc :
    (∀ r ∈ exampleRows, isIsoDate r.date = true) ∧
      exampleRows.map (fun r => utc.getMonth r.date) = [some 0, some 0, some 0] ∧
      exampleRows.map (fun r => (fixedOffset (-480)).getMonth r.date) =
        [some 11, some 11, some 0] ∧
      (aggregate (fixedOffset (-480)) exampleRows).map (fun a => a.monthlyMoodTrend) =
        some [some 5, some 3] ∧
      (aggregate utc exampleRows).map (fun a => a.monthlyMoodTrend.length) = some 1 := by
  decide!

/-! ### Order independence, overall mean, stress by weekday, totality -/

/-- C11: the aggregation is order-independent: for every list of mood events and every
permutation of it the aggregation returns the same result (the same `dailyAnalytics`,
`weeklyMoodTrend`, `monthlyMoodTrend`, `weeklyStressLevels`, `insights.avgMood` and
`insights.highestStressDay`), and so the route sends the same response, with arithmetic taken
exactly. -/
theorem aggregation_order_independent (D : JsDate) (rows1 rows2 : List Row)
    (h : rows1.Perm rows2) :
    aggregate D rows1 = aggregate D rows2 ∧
      ∀ email, moodAnalyticsRoute D (fun _ => Except.ok rows1) email =
        moodAnalyticsRoute D (fun _ => Except.ok rows2) email := by
  have hagg := aggregate_congr_perm D h
  refine ⟨hagg, ?_⟩
  intro email
  cases email with
  | none => rfl
  | some e => simp only [moodAnalyticsRoute, h.length_eq, hagg]

/-- C11 at the worked example and its reversal. -/
theorem aggregation_order_independent_witness :
    exampleRows.Perm exampleRows.reverse ∧
      aggregate utc exampleRows = aggregate utc exampleRows.reverse ∧
      ∀ email, moodAnalyticsRoute utc (fun _ => Except.ok exampleRows) email =
        moodAnalyticsRoute utc (fun _ => Except.ok exampleRows.reverse) email :=
  ⟨(List.reverse_perm exampleRows).symm,
    aggregation_order_independent utc exampleRows exampleRows.reverse
      (List.reverse_perm exampleRows).symm⟩

/-- C12, as stated, fails: the scores of the 20 events of `halfwayRows` have the mean
`23 / 20 = 1.15`, which formatted with one decimal place is `1.2`, and `insights.avgMood` is
`1.1`, because the double nearest to `23 / 20` lies below it; at the mean `5 / 4 = 1.25` of
`quarterRows`, which is a double, it is `1.3`. -/
theorem avgMood_halfway_mean_not_rounded_up :
    exactMean (halfwayRows.map (fun r => score r.mood)) = some (23 / 20) ∧
      toFixed1 (some (23 / 20)) = "1.2" ∧
      (aggregate utc halfwayRows).map (fun a => a.insights.avgMood) = some "1.1" ∧
      roundDouble (23 / 20) < 23 / 20 ∧
      exactMean (quarterRows.map (fun r => score r.mood)) = some (5 / 4) ∧
      (aggregate utc quarterRows).map (fun a => a.insights.avgMood) = some "1.3" := by
  decide!

/-- C12, amended: for every non-empty list of mood events (ISO dates) whose moods do not name
a member of `Object.prototype`, `insights.avgMood` is `toFixed(1)` of the double nearest to the
arithmetic mean of the scores of all the events, each event counted once: the string is `i.f`
for the digits `i = n / 10` and `f = n % 10` of a number `n` from 10 to 50 with `n / 10` at
distance at most one twentieth of that double, hence at most `1 / 20 + 2 ^ (-50)` of the mean.
For the three events of the worked example it is `3.7`, where the mean of the two per-day
averages would give `4.0`, and `highestStressDay` is `2024-01-01`. -/
theorem avgMood_is_event_weighted_mean (D : JsDate) (rows : List Row) (hne : rows ≠ [])
    (hdate : ∀ r ∈ rows, isIsoDate r.date = true)
    (hmood : ∀ r ∈ rows, r.mood ∉ objectPrototypeKeys) :
    (∃ a, aggregate D rows = some a ∧
      ∃ qs : List ℚ, rows.map (fun r => score r.mood) = qs.map some ∧
        a.insights.avgMood = toFixed1 (some (roundDouble (arithmeticMean qs))) ∧
        ∃ n : ℕ, 10 ≤ n ∧ n ≤ 50 ∧
          a.insights.avgMood = toString (n / 10) ++ "." ++ toString (n % 10) ∧
          |(n : ℚ) / 10 - roundDouble (arithmeticMean qs)| ≤ 1 / 20 ∧
          |(n : ℚ) / 10 - arithmeticMean qs| ≤ 1 / 20 + 1 / 2 ^ 50) ∧
      (aggregate utc exampleRows).map
          (fun a => (a.insights.avgMood, a.insights.highestStressDay,
            toFixed1 (mean (a.dailyAnalytics.map DayStat.avgMood)))) =
        some ("3.7", "2024-01-01", "4.0") := by
  refine ⟨?_, by decide!⟩
  obtain ⟨a, ha, _, _, _, _, havg⟩ := aggregate_of_isIsoDate D rows hne hdate
  obtain ⟨qs, hqs, hlen, hrange⟩ := exists_scores rows hmood
  have hq : qs ≠ [] := by
    intro e
    apply hne
    have : rows.length = 0 := by rw [← hlen, e]; rfl
    exact List.length_eq_zero.1 this
  have hb := arithmeticMean_bounds qs hq 1 5 hrange
  have hd := roundDouble_between (arithmeticMean qs) 1 5 (by norm_num)
    (by exact_mod_cast hb.1) (by exact_mod_cast hb.2)
  have hd1 : (1 : ℚ) ≤ roundDouble (arithmeticMean qs) := by exact_mod_cast hd.1
  have hd5 : roundDouble (arithmeticMean qs) ≤ (5 : ℚ) := by exact_mod_cast hd.2
  have h0 : (0 : ℚ) ≤ roundDouble (arithmeticMean qs) := by linarith
  have hstr : a.insights.avgMood = toFixed1 (some (roundDouble (arithmeticMean qs))) := by
    rw [havg, moodScores_accumulate, avgMoodOverall, hqs, mean_map_some qs hq]
  have hclose := fixedTenths_close _ h0
  have hround := roundDouble_close (arithmeticMean qs) 3 (by norm_num) (by linarith [hb.1])
    (by norm_num; linarith [hb.2])
  refine ⟨a, ha, qs, hqs, hstr, fixedTenths (roundDouble (arithmeticMean qs)),
    (fixedTenths_bounds _ hd1 hd5).1, (fixedTenths_bounds _ hd1 hd5).2, ?_, hclose, ?_⟩
  · rw [hstr, toFixed1_of_nonneg _ h0]
  · rw [abs_le] at hclose hround ⊢
    norm_num at hround ⊢
    constructor <;> linarith [hclose.1, hclose.2, hround.1, hround.2]

/-- C12, amended, at the worked example of the specification. -/
theorem avgMood_is_event_weighted_mean_witness :
    (exampleRows ≠ [] ∧ (∀ r ∈ exampleRows, isIsoDate r.date = true) ∧
        (∀ r ∈ exampleRows, r.mood ∉ objectPrototypeKeys)) ∧
      ∃ a, aggregate utc exampleRows = some a ∧
        ∃ qs : List ℚ, exampleRows.map (fun r => score r.mood) = qs.map some ∧
          a.insights.avgMood = toFixed1 (some (roundDouble (arithmeticMean qs))) ∧
          ∃ n : ℕ, 10 ≤ n ∧ n ≤ 50 ∧
            a.insights.avgMood = toString (n / 10) ++ "." ++ toString (n % 10) ∧
            |(n : ℚ) / 10 - roundDouble (arithmeticMean qs)| ≤ 1 / 20 ∧
            |(n : ℚ) / 10 - arithmeticMean qs| ≤ 1 / 20 + 1 / 2 ^ 50 :=
  ⟨⟨by decide, by decide, by decide⟩,
    (avgMood_is_event_weighted_mean utc exampleRows (by decide) (by decide) (by decide)).1⟩

/-- C13, as stated, fails: for the worked example `weeklyMoodTrend` is the double nearest to
`11 / 3` and `weeklyStressLevels` the double nearest to `80 / 3`, and that double is not
`100 - 20 * weeklyMoodTrend[0]`, neither computed exactly nor computed in doubles. -/
theorem weeklyStressLevels_not_affine_in_doubles :
    (aggregate utc exampleRows).map (fun a => (a.weeklyMoodTrend, a.weeklyStressLevels)) =
        some ([some (roundDouble (11 / 3))], [some (roundDouble (80 / 3))]) ∧
      roundDouble (11 / 3) = 8256599316845909 / 2251799813685248 ∧
      roundDouble (80 / 3) = 7505999378950827 / 281474976710656 ∧
      roundDouble (80 / 3) ≠ 100 - 20 * roundDouble (11 / 3) ∧
      roundDouble (80 / 3) ≠ roundDouble (100 - roundDouble (20 * roundDouble (11 / 3))) := by
  decide!

/-- C13, amended: for every non-empty list of mood events (ISO dates), `weeklyStressLevels`
has the length of `weeklyMoodTrend`, and position by position the two values come from one
exact weekday mean `m` of the scores: `weeklyMoodTrend[i]` is the double nearest to `m` and
`weeklyStressLevels[i]` is the double nearest to `100 - 20 * m`. So
`weeklyStressLevels[i] = 100 - 20 * weeklyMoodTrend[i]` holds up to rounding, with a difference
of at most `2 ^ (-44)`, and one of the two is `NaN` exactly when the other is. Every value of
`weeklyMoodTrend` that is a number lies in `[1, 5]` and every value of `weeklyStressLevels`
that is a number lies in `[0, 80]`; when no mood names a member of `Object.prototype`, all
values are numbers. -/
theorem weeklyStressLevels_affine_in_weeklyMoodTrend (D : JsDate) (rows : List Row)
    (hne : rows ≠ []) (hdate : ∀ r ∈ rows, isIsoDate r.date = true) :
    ∃ a, aggregate D rows = some a ∧
      a.weeklyStressLevels.length = a.weeklyMoodTrend.length ∧
      a.weeklyMoodTrend = (exactWeekdayMeans D rows).map (fun m => m.map roundDouble) ∧
      a.weeklyStressLevels =
        (exactWeekdayMeans D rows).map (fun m => m.map (fun x => roundDouble (100 - 20 * x))) ∧
      (∀ (i : ℕ) (x y : ℚ), a.weeklyMoodTrend[i]? = some (some x) →
        a.weeklyStressLevels[i]? = some (some y) → |y - (100 - 20 * x)| ≤ 1 / 2 ^ 44) ∧
      (∀ i : ℕ, a.weeklyMoodTrend[i]? = some none ↔ a.weeklyStressLevels[i]? = some none) ∧
      (∀ x ∈ a.weeklyMoodTrend, ∀ q : ℚ, x = some q → 1 ≤ q ∧ q ≤ 5) ∧
      (∀ y ∈ a.weeklyStressLevels, ∀ t : ℚ, y = some t → 0 ≤ t ∧ t ≤ 80) ∧
      ((∀ r ∈ rows, r.mood ∉ objectPrototypeKeys) →
        (∀ x ∈ a.weeklyMoodTrend, x ≠ none) ∧ ∀ y ∈ a.weeklyStressLevels, y ≠ none) := by
  obtain ⟨a, ha, _, hweek, _, hstress, _⟩ := aggregate_of_isIsoDate D rows hne hdate
  have hw : a.weeklyMoodTrend = (exactWeekdayMeans D rows).map (fun m => m.map roundDouble) := by
    rw [hweek, trend_weeklyData]
  have hs : a.weeklyStressLevels =
      (exactWeekdayMeans D rows).map (fun m => m.map (fun x => roundDouble (100 - 20 * x))) := by
    rw [hstress, trend_stressLevels]
  refine ⟨a, ha, by rw [hw, hs, List.length_map, List.length_map], hw, hs, ?_, ?_, ?_, ?_, ?_⟩
  · intro i x y hx hy
    rw [hw, List.getElem?_map] at hx
    rw [hs, List.getElem?_map] at hy
    cases hE : (exactWeekdayMeans D rows)[i]? with
    | none => rw [hE] at hx; cases hx
    | some m =>
      rw [hE] at hx hy
      have hm : m ∈ exactWeekdayMeans D rows := List.getElem?_mem hE
      cases m with
      | none => cases hx
      | some q =>
        obtain ⟨h1, h5⟩ := exactWeekdayMeans_bounds D rows _ hm q rfl
        simp only [Option.map_some', Option.some.injEq] at hx hy
        subst hx
        subst hy
        have e1 := roundDouble_close q 3 (by norm_num) (by linarith) (by norm_num; linarith)
        have e2 := roundDouble_close (100 - 20 * q) 7 (by norm_num) (by linarith)
          (by norm_num; linarith)
        rw [abs_le] at e1 e2 ⊢
        norm_num at e1 e2 ⊢
        constructor <;> linarith [e1.1, e1.2, e2.1, e2.2]
  · intro i
    rw [hw, hs, List.getElem?_map, List.getElem?_map]
    cases (exactWeekdayMeans D rows)[i]? with
    | none => simp
    | some m => cases m <;> simp
  · intro x hx q hq
    rw [hw] at hx
    obtain ⟨m, hm, rfl⟩ := List.mem_map.1 hx
    cases m with
    | none => cases hq
    | some p =>
      obtain ⟨h1, h5⟩ := exactWeekdayMeans_bounds D rows _ hm p rfl
      simp only [Option.map_some', Option.some.injEq] at hq
      subst hq
      have hd := roundDouble_between p 1 5 (by norm_num) (by exact_mod_cast h1)
        (by exact_mod_cast h5)
      exact ⟨by exact_mod_cast hd.1, by exact_mod_cast hd.2⟩
  · intro y hy t ht
    rw [hs] at hy
    obtain ⟨m, hm, rfl⟩ := List.mem_map.1 hy
    cases m with
    | none => cases ht
    | some p =>
      obtain ⟨h1, h5⟩ := exactWeekdayMeans_bounds D rows _ hm p rfl
      simp only [Option.map_some', Option.some.injEq] at ht
      subst ht
      have hd := roundDouble_between (100 - 20 * p) 0 80 (by norm_num)
        (by push_cast; linarith) (by push_cast; linarith)
      exact ⟨by exact_mod_cast hd.1, by exact_mod_cast hd.2⟩
  · intro hmood
    have hexact : ∀ m ∈ exactWeekdayMeans D rows, m ≠ none := by
      intro m hm
      unfold exactWeekdayMeans at hm
      obtain ⟨k, hk, rfl⟩ := List.mem_map.1 hm
      have hk2 := ((List.perm_insertionSort keyLe _).mem_iff).1 hk
      rw [accumulate, foldl_forEachBody_weeklyData] at hk2
      obtain ⟨arr, _, harr, hlen⟩ :=
        bucket_ne_nil (fun r : Row => D.getDay r.date) (fun r => score r.mood) rows k hk2
      obtain ⟨qs, hqs, hqlen, _⟩ :=
        exists_scores (rows.filter (fun r => D.getDay r.date = k))
          (fun r hr => hmood r (List.mem_filter.1 hr).1)
      have hq : qs ≠ [] := by
        intro e
        apply hlen
        rw [harr, List.length_map, ← hqlen, e]
        rfl
      rw [hqs, exactMean_map_some qs hq]
      simp
    constructor
    · intro x hx
      rw [hw] at hx
      obtain ⟨m, hm, rfl⟩ := List.mem_map.1 hx
      have := hexact m hm
      cases m with
      | none => exact absurd rfl this
      | some p => simp
    · intro y hy
      rw [hs] at hy
      obtain ⟨m, hm, rfl⟩ := List.mem_map.1 hy
      have := hexact m hm
      cases m with
      | none => exact absurd rfl this
      | some p => simp

/-- C13, amended, at the worked example of the specification: one weekday with the exact mean
`11 / 3`. -/
theorem weeklyStressLevels_affine_in_weeklyMoodTrend_witness :
    (exampleRows ≠ [] ∧ (∀ r ∈ exampleRows, isIsoDate r.date = true)) ∧
      (∃ a, aggregate utc exampleRows = some a ∧
        a.weeklyStressLevels.length = a.weeklyMoodTrend.length ∧
        a.weeklyMoodTrend =
          (exactWeekdayMeans utc exampleRows).map (fun m => m.map roundDouble) ∧
        a.weeklyStressLevels =
          (exactWeekdayMeans utc exampleRows).map
            (fun m => m.map (fun x => roundDouble (100 - 20 * x))) ∧
        (∀ (i : ℕ) (x y : ℚ), a.weeklyMoodTrend[i]? = some (some x) →
          a.weeklyStressLevels[i]? = some (some y) → |y - (100 - 20 * x)| ≤ 1 / 2 ^ 44) ∧
        (∀ i : ℕ, a.weeklyMoodTrend[i]? = some none ↔ a.weeklyStressLevels[i]? = some none) ∧
        (∀ x ∈ a.weeklyMoodTrend, ∀ q : ℚ, x = some q → 1 ≤ q ∧ q ≤ 5) ∧
        (∀ y ∈ a.weeklyStressLevels, ∀ t : ℚ, y = some t → 0 ≤ t ∧ t ≤ 80) ∧
        ((∀ r ∈ exampleRows, r.mood ∉ objectPrototypeKeys) →
          (∀ x ∈ a.weeklyMoodTrend, x ≠ none) ∧ ∀ y ∈ a.weeklyStressLevels, y ≠ none)) ∧
      exactWeekdayMeans utc exampleRows = [some (11 / 3)] :=
  ⟨⟨by decide, by decide⟩,
    weeklyStressLevels_affine_in_weeklyMoodTrend utc exampleRows (by decide) (by decide),
    by decide!⟩

/-- C14, on the code: a row whose date names a member of `Object.prototype` passes the guard
on `rows.length`, finds `dailyData[date]` truthy and creates no key, so for a result set of
such rows `dailyAnalytics` is empty, the reduce without initial value throws and the route
sends no response. -/
theorem aggregation_throws_on_inherited_date :
    inheritedDateRows ≠ [] ∧
      (accumulate utc inheritedDateRows).dailyData = [] ∧
      dailyAnalytics (accumulate utc inheritedDateRows).dailyData = [] ∧
      highestStressDayObj (dailyAnalytics (accumulate utc inheritedDateRows).dailyData) = none ∧
      aggregate utc inheritedDateRows = none ∧
      moodAnalyticsRoute utc (fun _ => Except.ok inheritedDateRows) (some "ann@example.org") =
        ⟨["ann@example.org"], none⟩ := by
  decide!

end MoodAnalytics
